import Mathlib

/-!
Verification of the audiobook-maker execution pipeline.

Shallow embedding of the chunker (`split_text_to_chunks`), the audio sample
conversion (`audio_to_int16`), the checkpoint store (`checkpoint.py`), the
sequential and overlapped pipeline schedulers (`run_inference_sequential`,
`run_inference_overlap3`) and the chapter-span derivation from `app.py`.

Strings are modelled as `List Char`; Python's `str.strip` / regex splits are
translated character by character.  Queues between the concurrent pipeline
stages are single-producer/single-consumer FIFOs, so the message sequence the
consumer observes is exactly the producer's emission order; they are embedded
as lists in emission order.
-/

/-- Python strings, modelled as lists of characters. -/
abbrev Str := List Char

/-- Whitespace predicate used by Python's `str.strip()` and `\s`. -/
def isWs (c : Char) : Bool := c.isWhitespace

/-- Python `str.lstrip()`: drop leading whitespace. -/
def stripLeft (s : Str) : Str := s.dropWhile isWs

/-- Python `str.rstrip()`: drop trailing whitespace. -/
def stripRight (s : Str) : Str := (s.reverse.dropWhile isWs).reverse

/-- Python `str.strip()`. -/
def pyStrip (s : Str) : Str := stripRight (stripLeft s)

/-- The non-whitespace character content of a string (what chunking must
preserve, per the spec's "modulo whitespace normalization"). -/
def keepNonWs (s : Str) : Str := s.filter (fun c => !isWs c)

/-- Model of `re.split(r"\n+", text)`: split on maximal runs of newlines.
app.py line 357. -/
def splitNl : Str → List Str
  | [] => [[]]
  | c :: rest =>
    if c = '\n' then
      [] :: splitNl (rest.dropWhile (fun d => d = '\n'))
    else
      match splitNl rest with
      | [] => [[c]]
      | p :: ps => (c :: p) :: ps
termination_by s => s.length
decreasing_by
  · exact Nat.lt_succ_of_le (List.dropWhile_sublist _).length_le
  · simp

/-- Sentence-terminal punctuation `[.!?]` of the sentence-split regex. -/
def isTermPunct (c : Char) : Bool := c = '.' || c = '!' || c = '?'

/-- Model of `re.split(r"(?<=[.!?])\s+", paragraph)`: split on maximal whitespace runs
that directly follow terminal punctuation.  app.py line 327. -/
def splitSent : Str → List Str
  | [] => [[]]
  | [c] => [[c]]
  | c :: d :: rest =>
    if isTermPunct c ∧ isWs d then
      [c] :: splitSent (rest.dropWhile isWs)
    else
      match splitSent (d :: rest) with
      | [] => [[c]]
      | p :: ps => (c :: p) :: ps
termination_by s => s.length
decreasing_by
  · have h := (List.dropWhile_sublist (l := rest) isWs).length_le
    simp only [List.length_cons]
    omega
  · simp

/-- The hard character-limit split
`for start in range(0, len(sentence), chunk_chars)` (app.py lines 339-340).
Defined for `cc ≥ 1`; Python raises on a zero step. -/
def hardSplit (cc : Nat) (s : Str) : List Str :=
  if h : cc = 0 ∨ s = [] then []
  else s.take cc :: hardSplit cc (s.drop cc)
termination_by s.length
decreasing_by
  have hcc : cc ≠ 0 := fun hc => h (Or.inl hc)
  have hs : s ≠ [] := fun hn => h (Or.inr hn)
  have : 0 < s.length := List.length_pos.mpr hs
  simp only [List.length_drop]
  omega

/-- Accumulator of the sentence loop in `split_oversized_paragraph`:
the `pieces` list and the `sentence_buffer`. -/
structure SentAcc where
  pieces : List Str
  buf : Str
deriving DecidableEq

/-- The `if sentence_buffer: pieces.append(sentence_buffer)` flush used both
inside the sentence loop and after it (app.py lines 336-337 and 351-352). -/
def flushSent (a : SentAcc) : List Str :=
  if a.buf = [] then a.pieces else a.pieces ++ [a.buf]

/-- One iteration of the sentence loop in `split_oversized_paragraph`
(app.py lines 330-349). -/
def sentStep (cc : Nat) (a : SentAcc) (s0 : Str) : SentAcc :=
  if pyStrip s0 = [] then a
  else if cc < (pyStrip s0).length then
    { pieces := flushSent a ++ hardSplit cc (pyStrip s0)
      buf := [] }
  else if (pyStrip (a.buf ++ ' ' :: pyStrip s0)).length ≤ cc then
    { a with buf := pyStrip (a.buf ++ ' ' :: pyStrip s0) }
  else
    { pieces := flushSent a
      buf := pyStrip s0 }

/-- The sentence loop of `split_oversized_paragraph` run over all sentences. -/
def sentLoop (cc : Nat) (paragraph : Str) : SentAcc :=
  (splitSent paragraph).foldl (sentStep cc) ⟨[], []⟩

/-- Model of `split_oversized_paragraph` (app.py lines 321-354); the final line is
`return pieces if pieces else [paragraph]`. -/
def split_oversized_paragraph (cc : Nat) (paragraph : Str) : List Str :=
  if paragraph.length ≤ cc then [paragraph]
  else if flushSent (sentLoop cc paragraph) = [] then [paragraph]
  else flushSent (sentLoop cc paragraph)

/-- The `TextChunk` of app.py: a chapter title plus a bounded block of text. -/
structure TextChunk where
  chapter_title : String
  text : Str
deriving DecidableEq

/-- One iteration of the piece loop in `split_text_to_chunks`
(app.py lines 366-372); state is `(chunks, buffer)`. -/
def pieceStep (cc : Nat) (title : String) (st : List TextChunk × Str) (piece : Str) :
    List TextChunk × Str :=
  if st.2.length + piece.length + 1 ≤ cc then
    (st.1, pyStrip (st.2 ++ ' ' :: piece))
  else
    ((if st.2 = [] then st.1 else st.1 ++ [⟨title, st.2⟩]), piece)

/-- Accumulated output of `split_text_to_chunks`: the chunk list and the
`chapter_start_indices` table. -/
structure SplitAcc where
  chunks : List TextChunk
  starts : List (Nat × String)
deriving DecidableEq

/-- Model of `paragraphs = [p.strip() for p in re.split(r"\n+", text) if p.strip()]`
(app.py line 357). -/
def chapterParagraphs (x : Str) : List Str :=
  ((splitNl x).map pyStrip).filter (fun p => p ≠ [])

/-- All pieces fed to the buffer loop of one chapter (app.py lines 365-366). -/
def chapterPieces (cc : Nat) (x : Str) : List Str :=
  (chapterParagraphs x).flatMap (split_oversized_paragraph cc)

/-- The buffer loop of one chapter, starting from the global chunk list and an
empty buffer (app.py lines 364-372). -/
def chapterLoop (cc : Nat) (title : String) (chunks0 : List TextChunk) (x : Str) :
    List TextChunk × Str :=
  (chapterPieces cc x).foldl (pieceStep cc title) (chunks0, [])

/-- The trailing `if buffer: chunks.append(TextChunk(title, buffer))`
(app.py lines 374-375). -/
def flushChunks (title : String) (st : List TextChunk × Str) : List TextChunk :=
  if st.2 = [] then st.1 else st.1 ++ [⟨title, st.2⟩]

/-- The body of the chapter loop of `split_text_to_chunks`
(app.py lines 356-375). -/
def processChapter (cc : Nat) (acc : SplitAcc) (chapter : String × Str) : SplitAcc :=
  if chapterParagraphs chapter.2 = [] then acc
  else
    { chunks := flushChunks chapter.1 (chapterLoop cc chapter.1 acc.chunks chapter.2)
      starts := acc.starts ++ [(acc.chunks.length, chapter.1)] }

/-- Model of `split_text_to_chunks(chapters, chunk_chars)` (app.py lines 308-377). -/
def split_text_to_chunks (chapters : List (String × Str)) (cc : Nat) :
    List TextChunk × List (Nat × String) :=
  ((chapters.foldl (processChapter cc) ⟨[], []⟩).chunks,
    (chapters.foldl (processChapter cc) ⟨[], []⟩).starts)


/-! ### Whitespace bookkeeping lemmas -/

theorem keepNonWs_nil : keepNonWs [] = [] := rfl

theorem keepNonWs_append (s t : Str) : keepNonWs (s ++ t) = keepNonWs s ++ keepNonWs t := by
  simp [keepNonWs]

theorem keepNonWs_cons_ws {c : Char} (hc : isWs c = true) (s : Str) :
    keepNonWs (c :: s) = keepNonWs s := by
  simp [keepNonWs, hc]

theorem keepNonWs_cons_not_ws {c : Char} (hc : isWs c = false) (s : Str) :
    keepNonWs (c :: s) = c :: keepNonWs s := by
  simp [keepNonWs, hc]

theorem keepNonWs_dropWhile (p : Char → Bool) (hp : ∀ c, p c = true → isWs c = true)
    (s : Str) : keepNonWs (s.dropWhile p) = keepNonWs s := by
  induction s with
  | nil => rfl
  | cons a s ih =>
    by_cases ha : p a = true
    · rw [List.dropWhile_cons, if_pos ha, ih, keepNonWs_cons_ws (hp a ha)]
    · rw [List.dropWhile_cons, if_neg ha]

theorem keepNonWs_reverse (s : Str) : keepNonWs s.reverse = (keepNonWs s).reverse := by
  simp [keepNonWs]

theorem keepNonWs_stripLeft (s : Str) : keepNonWs (stripLeft s) = keepNonWs s :=
  keepNonWs_dropWhile isWs (fun _ h => h) s

theorem keepNonWs_stripRight (s : Str) : keepNonWs (stripRight s) = keepNonWs s := by
  unfold stripRight
  rw [keepNonWs_reverse, keepNonWs_dropWhile isWs (fun _ h => h), keepNonWs_reverse,
    List.reverse_reverse]

theorem keepNonWs_pyStrip (s : Str) : keepNonWs (pyStrip s) = keepNonWs s := by
  unfold pyStrip
  rw [keepNonWs_stripRight, keepNonWs_stripLeft]

theorem pyStrip_nil_of_keepNonWs_nil {s : Str} (h : keepNonWs s = []) : pyStrip s = [] := by
  have hall : ∀ c ∈ s, isWs c = true := by
    intro c hc
    by_contra hns
    have : c ∈ keepNonWs s := by
      simp only [keepNonWs, List.mem_filter]
      exact ⟨hc, by simp [hns]⟩
    simp [h] at this
  have : stripLeft s = [] := by
    simp only [stripLeft, List.dropWhile_eq_nil_iff]
    exact hall
  simp [pyStrip, this, stripRight]

theorem keepNonWs_ne_nil_of_pyStrip {s : Str} (h : pyStrip s ≠ []) : keepNonWs s ≠ [] :=
  fun hk => h (pyStrip_nil_of_keepNonWs_nil hk)

theorem keepNonWs_pyStrip_ne_nil {s : Str} (hs : pyStrip s = s) (hne : s ≠ []) :
    keepNonWs s ≠ [] :=
  keepNonWs_ne_nil_of_pyStrip (by rw [hs]; exact hne)

theorem filter_not_dropWhile (p : Char → Bool) (l : Str) :
    (l.dropWhile p).filter (fun c => !p c) = l.filter (fun c => !p c) := by
  induction l with
  | nil => rfl
  | cons a l ih =>
    by_cases ha : p a = true
    · simp [List.dropWhile_cons, ha, ih]
    · simp [List.dropWhile_cons, ha]

/-! ### Split functions preserve character content -/

theorem splitNl_flatten (s : Str) :
    (splitNl s).flatten = s.filter (fun c => !(c = '\n')) := by
  induction s using splitNl.induct with
  | case1 => simp [splitNl]
  | case2 rest ih =>
    rw [splitNl]
    simp only [decide_True, if_true, List.flatten_cons, List.nil_append]
    rw [ih, filter_not_dropWhile]
    simp
  | case3 c rest hc hm ih =>
    rw [splitNl]
    simp only [if_neg hc, hm]
    rw [hm] at ih
    simp only [List.flatten_nil] at ih
    simp [← ih, hc]
  | case4 c rest hc p ps hm ih =>
    rw [splitNl]
    simp only [if_neg hc, hm]
    rw [hm] at ih
    simp only [List.flatten_cons] at ih ⊢
    rw [List.filter_cons_of_pos (by simp [hc]), ← ih]
    simp

theorem keepNonWs_splitNl (s : Str) : keepNonWs (splitNl s).flatten = keepNonWs s := by
  rw [splitNl_flatten]
  simp only [keepNonWs, List.filter_filter]
  apply List.filter_congr
  intro c _
  cases hw : isWs c
  · have hne : ¬ c = '\n' := by
      intro h
      rw [h] at hw
      exact absurd hw (by decide)
    simp [hne]
  · simp [hw]

theorem splitNl_chars (s : Str) {piece : Str} (hp : piece ∈ splitNl s) {c : Char}
    (hc : c ∈ piece) : c ∈ s := by
  have hj : c ∈ (splitNl s).flatten := List.mem_flatten.mpr ⟨piece, hp, hc⟩
  rw [splitNl_flatten] at hj
  exact (List.mem_filter.mp hj).1

theorem keepNonWs_splitSent (s : Str) : keepNonWs (splitSent s).flatten = keepNonWs s := by
  induction s using splitSent.induct with
  | case1 => simp [splitSent]
  | case2 c => simp [splitSent]
  | case3 c d rest hcd ih =>
    rw [splitSent]
    simp only [if_pos hcd, List.flatten_cons]
    rw [keepNonWs_append, ih, keepNonWs_dropWhile isWs (fun _ h => h)]
    rw [show (c :: d :: rest) = [c] ++ d :: rest from rfl, keepNonWs_append,
      keepNonWs_cons_ws hcd.2]
  | case4 c d rest hcd hm ih =>
    rw [splitSent]
    simp only [if_neg hcd, hm]
    rw [hm] at ih
    simp only [List.flatten_nil] at ih
    rw [show (c :: d :: rest) = [c] ++ d :: rest from rfl, keepNonWs_append, ← ih]
    simp [keepNonWs]
  | case5 c d rest hcd p ps hm ih =>
    rw [splitSent]
    simp only [if_neg hcd, hm]
    rw [hm] at ih
    simp only [List.flatten_cons] at ih ⊢
    rw [show (c :: p) ++ ps.flatten = [c] ++ (p ++ ps.flatten) from by simp, keepNonWs_append,
      ih, show (c :: d :: rest) = [c] ++ d :: rest from rfl, keepNonWs_append]

theorem hardSplit_flatten {cc : Nat} (hcc : cc ≠ 0) (s : Str) :
    (hardSplit cc s).flatten = s := by
  induction s using hardSplit.induct cc with
  | case1 s h =>
    rcases h with h | h
    · exact absurd h hcc
    · rw [hardSplit]
      simp [hcc, h]
  | case2 s h ih =>
    rw [hardSplit, dif_neg h]
    simp only [List.flatten_cons]
    rw [ih, List.take_append_drop]

/-! ### Piece well-formedness: nonempty, bounded by `chunk_chars`, and
carrying a non-whitespace character whenever strictly shorter than the limit -/

/-- Every piece `split_oversized_paragraph` emits satisfies this: it is
nonempty, at most `cc` characters, and if strictly shorter than `cc` it
contains a non-whitespace character. -/
def goodPiece (cc : Nat) (p : Str) : Prop :=
  p ≠ [] ∧ p.length ≤ cc ∧ (p.length < cc → keepNonWs p ≠ [])

theorem dropWhile_head?_false (p : Char → Bool) (l : Str) {c : Char}
    (h : (l.dropWhile p).head? = some c) : p c = false := by
  induction l with
  | nil => simp at h
  | cons a l ih =>
    rw [List.dropWhile_cons] at h
    by_cases ha : p a = true
    · rw [if_pos ha] at h
      exact ih h
    · rw [if_neg ha] at h
      simp at h
      rw [← h]
      exact Bool.not_eq_true _ ▸ ha

theorem pyStrip_getLast?_false {s : Str} {c : Char} (h : (pyStrip s).getLast? = some c) :
    isWs c = false := by
  unfold pyStrip stripRight at h
  rw [List.getLast?_reverse] at h
  exact dropWhile_head?_false isWs _ h

theorem stripLeft_length_le (s : Str) : (stripLeft s).length ≤ s.length :=
  (List.dropWhile_sublist _).length_le

theorem pyStrip_length_le (s : Str) : (pyStrip s).length ≤ s.length := by
  unfold pyStrip stripRight
  calc ((stripLeft s).reverse.dropWhile isWs).reverse.length
      = ((stripLeft s).reverse.dropWhile isWs).length := List.length_reverse _
    _ ≤ (stripLeft s).reverse.length := (List.dropWhile_sublist _).length_le
    _ = (stripLeft s).length := List.length_reverse _
    _ ≤ s.length := stripLeft_length_le s

theorem keepNonWs_ne_nil_of_getLast? {s : Str} {c : Char} (h : s.getLast? = some c)
    (hc : isWs c = false) : keepNonWs s ≠ [] := by
  intro hk
  have hmem : c ∈ s := List.mem_of_mem_getLast? h
  have : c ∈ keepNonWs s := by
    simp only [keepNonWs, List.mem_filter]
    exact ⟨hmem, by simp [hc]⟩
  simp [hk] at this

theorem getLast?_drop_of_ne_nil {l : Str} {n : Nat} (h : l.drop n ≠ []) :
    (l.drop n).getLast? = l.getLast? := by
  conv_rhs => rw [← List.take_append_drop n l]
  rw [List.getLast?_append_of_ne_nil _ h]

theorem hardSplit_ne_nil {cc : Nat} (hcc : cc ≠ 0) {s : Str} (hs : s ≠ []) :
    hardSplit cc s ≠ [] := by
  rw [hardSplit]
  have : ¬(cc = 0 ∨ s = []) := by
    rintro (h | h)
    · exact hcc h
    · exact hs h
  rw [dif_neg this]
  simp

theorem hardSplit_good {cc : Nat} (s : Str)
    (hlast : ∀ c, s.getLast? = some c → isWs c = false) :
    ∀ q ∈ hardSplit cc s, goodPiece cc q := by
  induction s using hardSplit.induct cc with
  | case1 s h =>
    intro q hq
    rw [hardSplit, dif_pos h] at hq
    simp at hq
  | case2 s h ih =>
    intro q hq
    have hcc0 : cc ≠ 0 := fun hc => h (Or.inl hc)
    have hs : s ≠ [] := fun hn => h (Or.inr hn)
    rw [hardSplit, dif_neg h] at hq
    rcases List.mem_cons.mp hq with hq | hq
    · subst hq
      refine ⟨?_, ?_, ?_⟩
      · intro htk
        rw [List.take_eq_nil_iff] at htk
        rcases htk with h1 | h1
        · exact hcc0 h1
        · exact hs h1
      · simp [List.length_take]
      · intro hlt
        have hlen : s.length < cc := by
          rw [List.length_take] at hlt
          omega
        have htake : s.take cc = s := List.take_of_length_le (Nat.le_of_lt hlen)
        rw [htake]
        have hc' : s.getLast? = some (s.getLast hs) := List.getLast?_eq_getLast s hs
        exact keepNonWs_ne_nil_of_getLast? hc' (hlast _ hc')
    · by_cases hd : s.drop cc = []
      · rw [hd, hardSplit, dif_pos (Or.inr rfl)] at hq
        simp at hq
      · refine ih ?_ q hq
        intro c hc
        rw [getLast?_drop_of_ne_nil hd] at hc
        exact hlast c hc

/-! ### The sentence loop of `split_oversized_paragraph` -/

/-- Invariant of the `sentence_buffer`: empty, or a nonempty bounded string
with non-whitespace content. -/
def goodBufS (cc : Nat) (b : Str) : Prop :=
  b = [] ∨ (b ≠ [] ∧ b.length ≤ cc ∧ keepNonWs b ≠ [])

/-- Invariant of the sentence-loop accumulator. -/
def goodSentAcc (cc : Nat) (a : SentAcc) : Prop :=
  (∀ q ∈ a.pieces, goodPiece cc q) ∧ goodBufS cc a.buf

theorem flush_flatten (a : SentAcc) :
    (flushSent a).flatten = a.pieces.flatten ++ a.buf := by
  unfold flushSent
  by_cases hb : a.buf = []
  · simp [hb]
  · simp [hb]

theorem flush_ne_nil {a : SentAcc} (h : a.pieces ≠ [] ∨ a.buf ≠ []) :
    flushSent a ≠ [] := by
  unfold flushSent
  by_cases hb : a.buf = []
  · rw [if_pos hb]
    rcases h with h | h
    · exact h
    · exact absurd hb h
  · rw [if_neg hb]
    simp

theorem flush_good {cc : Nat} {a : SentAcc} (h : goodSentAcc cc a) :
    ∀ q ∈ flushSent a, goodPiece cc q := by
  intro q hq
  unfold flushSent at hq
  by_cases hb : a.buf = []
  · rw [if_pos hb] at hq
    exact h.1 q hq
  · rw [if_neg hb] at hq
    rcases List.mem_append.mp hq with hq | hq
    · exact h.1 q hq
    · simp only [List.mem_singleton] at hq
      subst hq
      rcases h.2 with h2 | ⟨h2a, h2b, h2c⟩
      · exact absurd h2 hb
      · exact ⟨h2a, h2b, fun _ => h2c⟩

theorem keepNonWs_strip_result_ne_nil {s : Str} (h : pyStrip s ≠ []) :
    keepNonWs (pyStrip s) ≠ [] := by
  rw [keepNonWs_pyStrip]
  exact keepNonWs_ne_nil_of_pyStrip h

theorem candidate_ne_nil {b s0 : Str} (hs : pyStrip s0 ≠ []) :
    pyStrip (b ++ ' ' :: pyStrip s0) ≠ [] := by
  intro hc
  have h1 : keepNonWs (b ++ ' ' :: pyStrip s0) = [] := by
    rw [← keepNonWs_pyStrip, hc]
    rfl
  rw [keepNonWs_append, keepNonWs_cons_ws (by decide)] at h1
  have := keepNonWs_strip_result_ne_nil hs
  exact this (List.append_eq_nil.mp h1).2

theorem sentStep_good {cc : Nat} {a : SentAcc} (ha : goodSentAcc cc a) (s0 : Str) :
    goodSentAcc cc (sentStep cc a s0) := by
  unfold sentStep
  by_cases h1 : pyStrip s0 = []
  · rw [if_pos h1]
    exact ha
  · rw [if_neg h1]
    by_cases h2 : cc < (pyStrip s0).length
    · rw [if_pos h2]
      refine ⟨?_, Or.inl rfl⟩
      intro q hq
      rcases List.mem_append.mp hq with hq | hq
      · exact flush_good ha q hq
      · exact hardSplit_good _ (fun c hc => pyStrip_getLast?_false hc) q hq
    · rw [if_neg h2]
      by_cases h3 : (pyStrip (a.buf ++ ' ' :: pyStrip s0)).length ≤ cc
      · rw [if_pos h3]
        refine ⟨ha.1, Or.inr ⟨candidate_ne_nil h1, h3, ?_⟩⟩
        rw [keepNonWs_pyStrip, keepNonWs_append, keepNonWs_cons_ws (by decide)]
        intro hnil
        exact keepNonWs_strip_result_ne_nil h1 (List.append_eq_nil.mp hnil).2
      · rw [if_neg h3]
        refine ⟨flush_good ha, Or.inr ⟨h1, ?_, keepNonWs_strip_result_ne_nil h1⟩⟩
        show (pyStrip s0).length ≤ cc
        omega

theorem sentStep_nontrivial {cc : Nat} (hcc : cc ≠ 0) (a : SentAcc) (s0 : Str)
    (h : a.pieces ≠ [] ∨ a.buf ≠ [] ∨ pyStrip s0 ≠ []) :
    (sentStep cc a s0).pieces ≠ [] ∨ (sentStep cc a s0).buf ≠ [] := by
  unfold sentStep
  by_cases h1 : pyStrip s0 = []
  · rw [if_pos h1]
    rcases h with h | h | h
    · exact Or.inl h
    · exact Or.inr h
    · exact absurd h1 h
  · rw [if_neg h1]
    by_cases h2 : cc < (pyStrip s0).length
    · rw [if_pos h2]
      left
      intro hap
      rcases List.append_eq_nil.mp hap with ⟨-, h4⟩
      exact hardSplit_ne_nil hcc h1 h4
    · rw [if_neg h2]
      by_cases h3 : (pyStrip (a.buf ++ ' ' :: pyStrip s0)).length ≤ cc
      · rw [if_pos h3]
        exact Or.inr (candidate_ne_nil h1)
      · rw [if_neg h3]
        exact Or.inr h1

theorem sentStep_content {cc : Nat} (hcc : cc ≠ 0) (a : SentAcc) (s0 : Str) :
    keepNonWs ((sentStep cc a s0).pieces.flatten ++ (sentStep cc a s0).buf) =
      keepNonWs (a.pieces.flatten ++ a.buf) ++ keepNonWs s0 := by
  unfold sentStep
  by_cases h1 : pyStrip s0 = []
  · rw [if_pos h1]
    have : keepNonWs s0 = [] := by
      rw [← keepNonWs_pyStrip, h1]
      rfl
    rw [this, List.append_nil]
  · rw [if_neg h1]
    by_cases h2 : cc < (pyStrip s0).length
    · rw [if_pos h2]
      simp only [List.flatten_append, flush_flatten, List.append_nil]
      rw [hardSplit_flatten hcc, keepNonWs_append, keepNonWs_pyStrip]
    · rw [if_neg h2]
      by_cases h3 : (pyStrip (a.buf ++ ' ' :: pyStrip s0)).length ≤ cc
      · rw [if_pos h3]
        simp only
        rw [keepNonWs_append, keepNonWs_pyStrip, keepNonWs_append,
          keepNonWs_cons_ws (by decide), keepNonWs_pyStrip, keepNonWs_append,
          List.append_assoc]
      · rw [if_neg h3]
        simp only [flush_flatten]
        rw [keepNonWs_append, keepNonWs_pyStrip]

theorem sentFold_good {cc : Nat} (l : List Str) (a : SentAcc) (ha : goodSentAcc cc a) :
    goodSentAcc cc (l.foldl (sentStep cc) a) := by
  induction l generalizing a with
  | nil => exact ha
  | cons s l ih => exact ih _ (sentStep_good ha s)

theorem sentFold_nontrivial {cc : Nat} (hcc : cc ≠ 0) (l : List Str) (a : SentAcc)
    (h : a.pieces ≠ [] ∨ a.buf ≠ [] ∨ ∃ s ∈ l, pyStrip s ≠ []) :
    (l.foldl (sentStep cc) a).pieces ≠ [] ∨ (l.foldl (sentStep cc) a).buf ≠ [] := by
  induction l generalizing a with
  | nil =>
    rcases h with h | h | ⟨s, hs, -⟩
    · exact Or.inl h
    · exact Or.inr h
    · simp at hs
  | cons s l ih =>
    simp only [List.foldl_cons]
    by_cases hnt : a.pieces ≠ [] ∨ a.buf ≠ [] ∨ pyStrip s ≠ []
    · have := @sentStep_nontrivial cc hcc a s hnt
      rcases this with h' | h'
      · exact ih _ (Or.inl h')
      · exact ih _ (Or.inr (Or.inl h'))
    · push_neg at hnt
      rcases h with h | h | ⟨t, ht, hts⟩
      · exact absurd hnt.1 h
      · exact absurd hnt.2.1 h
      · rcases List.mem_cons.mp ht with rfl | ht
        · exact absurd hnt.2.2 hts
        · have hstep : sentStep cc a s = a := by
            unfold sentStep
            rw [if_pos hnt.2.2]
          rw [hstep]
          exact ih _ (Or.inr (Or.inr ⟨t, ht, hts⟩))

theorem sentFold_content {cc : Nat} (hcc : cc ≠ 0) (l : List Str) (a : SentAcc) :
    keepNonWs ((l.foldl (sentStep cc) a).pieces.flatten ++ (l.foldl (sentStep cc) a).buf) =
      keepNonWs (a.pieces.flatten ++ a.buf) ++ keepNonWs l.flatten := by
  induction l generalizing a with
  | nil => simp [keepNonWs]
  | cons s l ih =>
    simp only [List.foldl_cons, List.flatten_cons]
    rw [ih, sentStep_content hcc, keepNonWs_append, List.append_assoc, keepNonWs_append]

/-! ### `split_oversized_paragraph` specification -/

theorem keepNonWs_flatten_eq_nil {L : List Str} (h : ∀ x ∈ L, keepNonWs x = []) :
    keepNonWs L.flatten = [] := by
  induction L with
  | nil => rfl
  | cons x L ih =>
    rw [List.flatten_cons, keepNonWs_append, h x (by simp), List.nil_append]
    exact ih (fun y hy => h y (by simp [hy]))

theorem sop_good {cc : Nat} (hcc : cc ≠ 0) {p t : Str} (hne : p ≠ [])
    (hstrip : p = pyStrip t) :
    (∀ q ∈ split_oversized_paragraph cc p, goodPiece cc q) ∧
    split_oversized_paragraph cc p ≠ [] ∧
    keepNonWs (split_oversized_paragraph cc p).flatten = keepNonWs p := by
  have hpstrip : pyStrip t ≠ [] := hstrip ▸ hne
  have hknw : keepNonWs p ≠ [] := by
    rw [hstrip]
    exact keepNonWs_strip_result_ne_nil hpstrip
  unfold split_oversized_paragraph
  by_cases hlen : p.length ≤ cc
  · rw [if_pos hlen]
    refine ⟨?_, by simp, by simp⟩
    intro q hq
    simp only [List.mem_singleton] at hq
    subst hq
    exact ⟨hne, hlen, fun _ => hknw⟩
  · rw [if_neg hlen]
    have hgood : goodSentAcc cc (sentLoop cc p) := by
      apply sentFold_good
      exact ⟨by intro q hq; simp at hq, Or.inl rfl⟩
    have hex : ∃ s ∈ splitSent p, pyStrip s ≠ [] := by
      by_contra hall
      push_neg at hall
      have : keepNonWs (splitSent p).flatten = [] := by
        apply keepNonWs_flatten_eq_nil
        intro x hx
        have hx2 : pyStrip x = [] := hall x hx
        rw [← keepNonWs_pyStrip, hx2]
        rfl
      rw [keepNonWs_splitSent] at this
      exact hknw this
    have hnt := @sentFold_nontrivial cc hcc (splitSent p) ⟨[], []⟩
      (Or.inr (Or.inr hex))
    have hflush : flushSent (sentLoop cc p) ≠ [] := by
      apply flush_ne_nil
      exact hnt
    rw [if_neg hflush]
    refine ⟨flush_good hgood, hflush, ?_⟩
    rw [flush_flatten]
    have := @sentFold_content cc hcc (splitSent p) ⟨[], []⟩
    unfold sentLoop
    rw [this]
    simp only [List.flatten_nil, List.nil_append]
    rw [keepNonWs_splitSent]
    rfl

/-! ### The chapter buffer loop -/

/-- Invariant of the chapter `buffer`: empty or nonempty and bounded. -/
def goodBufC (cc : Nat) (b : Str) : Prop := b = [] ∨ (b ≠ [] ∧ b.length ≤ cc)

/-- Every chunk the chunker emits is nonempty and bounded by `chunk_chars`. -/
def goodChunk (cc : Nat) (ch : TextChunk) : Prop := ch.text ≠ [] ∧ ch.text.length ≤ cc

theorem pieceStep_append (cc : Nat) (t : String) (cs cs' : List TextChunk) (b q : Str) :
    pieceStep cc t (cs ++ cs', b) q =
      (cs ++ (pieceStep cc t (cs', b) q).1, (pieceStep cc t (cs', b) q).2) := by
  unfold pieceStep
  by_cases h : b.length + q.length + 1 ≤ cc
  · simp only [if_pos h]
  · simp only [if_neg h]
    by_cases hb : b = []
    · simp [hb]
    · simp [hb]

theorem pieceFold_append (cc : Nat) (t : String) (l : List Str) (cs cs' : List TextChunk)
    (b : Str) :
    l.foldl (pieceStep cc t) (cs ++ cs', b) =
      (cs ++ (l.foldl (pieceStep cc t) (cs', b)).1, (l.foldl (pieceStep cc t) (cs', b)).2) := by
  induction l generalizing cs' b with
  | nil => simp
  | cons q l ih =>
    simp only [List.foldl_cons]
    rw [pieceStep_append]
    exact ih _ _

theorem pieceStep_inv {cc : Nat} {t : String} (hcc : cc ≠ 0) {cs : List TextChunk} {b q : Str}
    (hq : goodPiece cc q) (hcs : ∀ ch ∈ cs, goodChunk cc ch) (hb : goodBufC cc b) :
    (∀ ch ∈ (pieceStep cc t (cs, b) q).1, goodChunk cc ch) ∧
    ((pieceStep cc t (cs, b) q).2 ≠ [] ∧ (pieceStep cc t (cs, b) q).2.length ≤ cc) ∧
    keepNonWs (((pieceStep cc t (cs, b) q).1.map TextChunk.text).flatten ++
        (pieceStep cc t (cs, b) q).2) =
      keepNonWs ((cs.map TextChunk.text).flatten ++ b) ++ keepNonWs q := by
  rcases hq with ⟨hq1, hq2, hq3⟩
  unfold pieceStep
  by_cases h : b.length + q.length + 1 ≤ cc
  · simp only [if_pos h]
    have hqlt : q.length < cc := by omega
    have hknwq : keepNonWs q ≠ [] := hq3 hqlt
    have hcand : keepNonWs (b ++ ' ' :: q) = keepNonWs b ++ keepNonWs q := by
      rw [keepNonWs_append, keepNonWs_cons_ws (by decide)]
    refine ⟨hcs, ⟨?_, ?_⟩, ?_⟩
    · intro hnil
      have : keepNonWs (b ++ ' ' :: q) = [] := by
        rw [← keepNonWs_pyStrip, hnil]
        rfl
      rw [hcand] at this
      exact hknwq (List.append_eq_nil.mp this).2
    · calc (pyStrip (b ++ ' ' :: q)).length ≤ (b ++ ' ' :: q).length := pyStrip_length_le _
        _ = b.length + (q.length + 1) := by simp [List.length_append]
        _ ≤ cc := by omega
    · rw [keepNonWs_append, keepNonWs_pyStrip, hcand, keepNonWs_append, List.append_assoc]
  · simp only [if_neg h]
    by_cases hbn : b = []
    · simp only [if_pos hbn]
      subst hbn
      exact ⟨hcs, ⟨hq1, hq2⟩, by simp [keepNonWs_append, keepNonWs]⟩
    · simp only [if_neg hbn]
      rcases hb with hb | ⟨-, hb2⟩
      · exact absurd hb hbn
      · refine ⟨?_, ⟨hq1, hq2⟩, ?_⟩
        · intro ch hch
          rcases List.mem_append.mp hch with hch | hch
          · exact hcs ch hch
          · simp only [List.mem_singleton] at hch
            subst hch
            exact ⟨hbn, hb2⟩
        · simp only [List.map_append, List.map_cons, List.map_nil, List.flatten_append,
            List.flatten_cons, List.flatten_nil, List.append_nil]
          simp [keepNonWs_append, List.append_assoc]

theorem pieceFold_inv {cc : Nat} {t : String} (hcc : cc ≠ 0) (l : List Str)
    (hl : ∀ q ∈ l, goodPiece cc q) (cs : List TextChunk) (b : Str)
    (hcs : ∀ ch ∈ cs, goodChunk cc ch) (hb : goodBufC cc b) :
    (∀ ch ∈ (l.foldl (pieceStep cc t) (cs, b)).1, goodChunk cc ch) ∧
    goodBufC cc (l.foldl (pieceStep cc t) (cs, b)).2 ∧
    keepNonWs (((l.foldl (pieceStep cc t) (cs, b)).1.map TextChunk.text).flatten ++
        (l.foldl (pieceStep cc t) (cs, b)).2) =
      keepNonWs ((cs.map TextChunk.text).flatten ++ b) ++ keepNonWs l.flatten ∧
    (l ≠ [] → (l.foldl (pieceStep cc t) (cs, b)).2 ≠ []) := by
  induction l generalizing cs b with
  | nil =>
    refine ⟨hcs, hb, ?_, fun hne => absurd rfl hne⟩
    simp [keepNonWs]
  | cons q l ih =>
    simp only [List.foldl_cons]
    have hstep := pieceStep_inv (t := t) hcc (hl q (by simp)) hcs hb
    have hnext := ih (fun q' hq' => hl q' (by simp [hq'])) (pieceStep cc t (cs, b) q).1
      (pieceStep cc t (cs, b) q).2 hstep.1 (Or.inr hstep.2.1)
    refine ⟨hnext.1, hnext.2.1, ?_, ?_⟩
    · rw [hnext.2.2.1, hstep.2.2, List.flatten_cons, keepNonWs_append, List.append_assoc,
        keepNonWs_append]
    · intro _
      by_cases hln : l = []
      · subst hln
        simpa using hstep.2.1.1
      · exact hnext.2.2.2 hln

/-! ### Per-chapter specification -/

theorem keepNonWs_flatMap {f : Str → List Str} {l : List Str}
    (h : ∀ p ∈ l, keepNonWs (f p).flatten = keepNonWs p) :
    keepNonWs (l.flatMap f).flatten = keepNonWs l.flatten := by
  induction l with
  | nil => rfl
  | cons p l ih =>
    simp only [List.flatMap_cons, List.flatten_append, List.flatten_cons]
    rw [keepNonWs_append, h p (by simp), ih (fun x hx => h x (by simp [hx])),
      keepNonWs_append]

theorem flatten_filter_ne_nil (L : List Str) :
    (L.filter (fun p => p ≠ [])).flatten = L.flatten := by
  induction L with
  | nil => rfl
  | cons x L ih =>
    by_cases hx : x = []
    · subst hx
      rw [List.filter_cons, if_neg (by simp), ih]
      simp
    · rw [List.filter_cons, if_pos (by simp [hx]), List.flatten_cons, ih, List.flatten_cons]

theorem keepNonWs_flatten_map_pyStrip (L : List Str) :
    keepNonWs ((L.map pyStrip).flatten) = keepNonWs L.flatten := by
  induction L with
  | nil => rfl
  | cons x L ih =>
    simp only [List.map_cons, List.flatten_cons]
    rw [keepNonWs_append, keepNonWs_pyStrip, ih, keepNonWs_append]

theorem keepNonWs_chapterParagraphs (x : Str) :
    keepNonWs (chapterParagraphs x).flatten = keepNonWs x := by
  unfold chapterParagraphs
  rw [flatten_filter_ne_nil, keepNonWs_flatten_map_pyStrip, keepNonWs_splitNl]

theorem chapterParagraphs_mem {x p : Str} (hp : p ∈ chapterParagraphs x) :
    p ≠ [] ∧ ∃ t, p = pyStrip t := by
  unfold chapterParagraphs at hp
  have h1 := List.of_mem_filter hp
  have h2 := List.mem_of_mem_filter hp
  rcases List.mem_map.mp h2 with ⟨t, -, ht⟩
  exact ⟨by simpa using h1, t, ht.symm⟩

theorem chapterPieces_good {cc : Nat} (hcc : cc ≠ 0) (x : Str) :
    ∀ q ∈ chapterPieces cc x, goodPiece cc q := by
  intro q hq
  unfold chapterPieces at hq
  rcases List.mem_flatMap.mp hq with ⟨p, hp, hqp⟩
  rcases chapterParagraphs_mem hp with ⟨hne, t, ht⟩
  exact (sop_good hcc hne ht).1 q hqp

theorem chapterPieces_content {cc : Nat} (hcc : cc ≠ 0) (x : Str) :
    keepNonWs (chapterPieces cc x).flatten = keepNonWs x := by
  unfold chapterPieces
  rw [keepNonWs_flatMap, keepNonWs_chapterParagraphs]
  intro p hp
  rcases chapterParagraphs_mem hp with ⟨hne, t, ht⟩
  exact (sop_good hcc hne ht).2.2

theorem chapterPieces_ne_nil {cc : Nat} (hcc : cc ≠ 0) {x : Str}
    (h : chapterParagraphs x ≠ []) : chapterPieces cc x ≠ [] := by
  unfold chapterPieces
  rcases List.exists_mem_of_ne_nil _ h with ⟨p, hp⟩
  rcases chapterParagraphs_mem hp with ⟨hne, t, ht⟩
  intro hfm
  have : split_oversized_paragraph cc p = [] := by
    have hsub : split_oversized_paragraph cc p ⊆ [] := by
      rw [← hfm]
      intro a ha
      exact List.mem_flatMap.mpr ⟨p, hp, ha⟩
    rcases hx : split_oversized_paragraph cc p with _ | ⟨a, l⟩
    · rfl
    · have : a ∈ ([] : List Str) := hsub (by rw [hx]; simp)
      simp at this
  exact (sop_good hcc hne ht).2.1 this

theorem flushChunks_append (t : String) (cs : List TextChunk) (st : List TextChunk × Str) :
    flushChunks t (cs ++ st.1, st.2) = cs ++ flushChunks t st := by
  unfold flushChunks
  by_cases h : st.2 = []
  · simp [h]
  · simp [h]

/-- Full specification of one chapter-loop iteration: the chapter appends
`nc` chunks and `ns` chapter-start entries; a chapter with no paragraphs
appends nothing and has whitespace-only text, otherwise exactly one start
entry pointing at the first appended chunk is recorded and at least one chunk
is appended; all appended chunks are nonempty and bounded; the appended chunks
carry exactly the chapter's non-whitespace character content. -/
theorem processChapter_spec {cc : Nat} (hcc : cc ≠ 0) (acc : SplitAcc) (ch : String × Str) :
    ∃ nc ns, processChapter cc acc ch = ⟨acc.chunks ++ nc, acc.starts ++ ns⟩ ∧
      ((nc = [] ∧ ns = [] ∧ keepNonWs ch.2 = []) ∨
        (nc ≠ [] ∧ ns = [(acc.chunks.length, ch.1)])) ∧
      (∀ c ∈ nc, goodChunk cc c) ∧
      keepNonWs ((nc.map TextChunk.text).flatten) = keepNonWs ch.2 := by
  unfold processChapter
  by_cases hpar : chapterParagraphs ch.2 = []
  · have h0 : keepNonWs ch.2 = [] := by
      rw [← keepNonWs_chapterParagraphs ch.2, hpar]
      rfl
    refine ⟨[], [], ?_, Or.inl ⟨rfl, rfl, h0⟩, by simp, by simp [h0, keepNonWs_nil]⟩
    rw [if_pos hpar]
    simp
  · rw [if_neg hpar]
    have hpieces := chapterPieces_good hcc ch.2
    have hfold := pieceFold_inv (t := ch.1) hcc (chapterPieces cc ch.2) hpieces [] []
      (by intro c hc; simp at hc) (Or.inl rfl)
    have hrebase : chapterLoop cc ch.1 acc.chunks ch.2 =
        (acc.chunks ++ ((chapterPieces cc ch.2).foldl (pieceStep cc ch.1) ([], [])).1,
          ((chapterPieces cc ch.2).foldl (pieceStep cc ch.1) ([], [])).2) := by
      unfold chapterLoop
      have := pieceFold_append cc ch.1 (chapterPieces cc ch.2) acc.chunks [] []
      simpa using this
    set r := (chapterPieces cc ch.2).foldl (pieceStep cc ch.1) (([] : List TextChunk), ([] : Str))
      with hr
    have hbuf : r.2 ≠ [] := hfold.2.2.2 (chapterPieces_ne_nil hcc hpar)
    refine ⟨r.1 ++ [⟨ch.1, r.2⟩], [(acc.chunks.length, ch.1)], ?_, ?_, ?_, ?_⟩
    · rw [hrebase, flushChunks_append]
      unfold flushChunks
      rw [if_neg hbuf]
    · right
      exact ⟨by simp, rfl⟩
    · intro c hc
      rcases List.mem_append.mp hc with hc | hc
      · exact hfold.1 c hc
      · simp only [List.mem_singleton] at hc
        subst hc
        rcases hfold.2.1 with h | ⟨-, h2⟩
        · exact absurd h hbuf
        · exact ⟨hbuf, h2⟩
    · have h2 : keepNonWs ((List.map TextChunk.text r.1).flatten ++ r.2) =
          keepNonWs (chapterPieces cc ch.2).flatten := by
        have h3 := hfold.2.2.1
        simpa [keepNonWs_nil] using h3
      have hgoal : (List.map TextChunk.text (r.1 ++ [⟨ch.1, r.2⟩])).flatten =
          (List.map TextChunk.text r.1).flatten ++ r.2 := by simp
      rw [hgoal, h2, chapterPieces_content hcc]

/-! ### Whole-run chunker facts and the chunker claims -/

theorem keepNonWs_nil_of_all_ws {s : Str} (h : ∀ c ∈ s, isWs c = true) :
    keepNonWs s = [] := by
  simp only [keepNonWs, List.filter_eq_nil_iff]
  intro c hc
  simp [h c hc]

theorem splitFold_content {cc : Nat} (hcc : cc ≠ 0) (chapters : List (String × Str))
    (acc : SplitAcc) :
    keepNonWs (((chapters.foldl (processChapter cc) acc).chunks.map TextChunk.text).flatten) =
      keepNonWs ((acc.chunks.map TextChunk.text).flatten) ++
        keepNonWs ((chapters.map Prod.snd).flatten) := by
  induction chapters generalizing acc with
  | nil => simp [keepNonWs_nil]
  | cons ch chs ih =>
    simp only [List.foldl_cons, List.map_cons, List.flatten_cons]
    rw [ih]
    rcases processChapter_spec hcc acc ch with ⟨nc, ns, heq, -, -, hcontent⟩
    rw [heq]
    simp only [List.map_append, List.flatten_append]
    rw [keepNonWs_append, hcontent, keepNonWs_append, List.append_assoc]

theorem splitFold_good {cc : Nat} (hcc : cc ≠ 0) (chapters : List (String × Str))
    (acc : SplitAcc) (hacc : ∀ chk ∈ acc.chunks, goodChunk cc chk) :
    ∀ chk ∈ (chapters.foldl (processChapter cc) acc).chunks, goodChunk cc chk := by
  induction chapters generalizing acc with
  | nil => exact hacc
  | cons ch chs ih =>
    simp only [List.foldl_cons]
    rcases processChapter_spec hcc acc ch with ⟨nc, ns, heq, -, hgood, -⟩
    refine ih _ ?_
    rw [heq]
    intro chk hchk
    rcases List.mem_append.mp hchk with h | h
    · exact hacc chk h
    · exact hgood chk h

theorem processChapter_skip {cc : Nat} (acc : SplitAcc) {title : String} {x : Str}
    (h : ∀ c ∈ x, isWs c = true) : processChapter cc acc (title, x) = acc := by
  unfold processChapter
  rw [if_pos ?_]
  unfold chapterParagraphs
  rw [List.filter_eq_nil_iff]
  intro p hp
  rcases List.mem_map.mp hp with ⟨piece, hpiece, hps⟩
  have hallws : ∀ c ∈ piece, isWs c = true := fun c hc => h c (splitNl_chars x hpiece hc)
  have : keepNonWs piece = [] := keepNonWs_nil_of_all_ws hallws
  have : pyStrip piece = [] := pyStrip_nil_of_keepNonWs_nil this
  simp [← hps, this]

/-- C2: for every chapter list and every `max_chars ≥ 1`, concatenating the
texts of the chunks produced by `split_text_to_chunks` reproduces, modulo
whitespace, the concatenation of the chapters' text content: no
non-whitespace character is lost, duplicated, or reordered. -/
theorem split_text_to_chunks_lossless (chapters : List (String × Str)) (cc : Nat)
    (hcc : 1 ≤ cc) :
    keepNonWs (((split_text_to_chunks chapters cc).1.map TextChunk.text).flatten) =
      keepNonWs ((chapters.map Prod.snd).flatten) := by
  unfold split_text_to_chunks
  rw [splitFold_content (by omega) chapters ⟨[], []⟩]
  simp [keepNonWs_nil]

/-- Witness for C2 at a concrete input. -/
theorem split_text_to_chunks_lossless_witness :
    1 ≤ 20 ∧
      keepNonWs (((split_text_to_chunks [("Ch1", "Hi there. Bye.".data)] 20).1.map
          TextChunk.text).flatten) =
        keepNonWs (([("Ch1", ("Hi there. Bye.".data : Str))].map Prod.snd).flatten) :=
  ⟨by decide, split_text_to_chunks_lossless [("Ch1", "Hi there. Bye.".data)] 20 (by decide)⟩

/-- C8: for every chapter list and `max_chars ≥ 1`, no produced chunk has
empty text and no chunk's text exceeds `max_chars` (so in particular none
exceeds it except by the oversized-sentence exception, which the hard split
makes unnecessary); an empty chapter list yields empty outputs, and a chapter
containing only whitespace is skipped entirely. -/
theorem split_text_to_chunks_nonempty_bounded (chapters : List (String × Str)) (cc : Nat)
    (hcc : 1 ≤ cc) :
    (∀ chk ∈ (split_text_to_chunks chapters cc).1, chk.text ≠ [] ∧ chk.text.length ≤ cc) ∧
    split_text_to_chunks [] cc = ([], []) ∧
    (∀ (title : String) (x : Str) (rest : List (String × Str)), (∀ c ∈ x, isWs c = true) →
      split_text_to_chunks ((title, x) :: rest) cc = split_text_to_chunks rest cc) := by
  refine ⟨?_, rfl, ?_⟩
  · intro chk hchk
    exact splitFold_good (by omega) chapters ⟨[], []⟩ (by intro c hc; simp at hc) chk hchk
  · intro title x rest hws
    unfold split_text_to_chunks
    simp only [List.foldl_cons]
    rw [processChapter_skip ⟨[], []⟩ hws]

/-- Witness for C8 at a concrete input. -/
theorem split_text_to_chunks_nonempty_bounded_witness :
    1 ≤ 20 ∧
      ((∀ chk ∈ (split_text_to_chunks [("Ch1", "Hi there. Bye.".data)] 20).1,
          chk.text ≠ [] ∧ chk.text.length ≤ 20) ∧
        split_text_to_chunks [] 20 = ([], []) ∧
        (∀ (title : String) (x : Str) (rest : List (String × Str)),
          (∀ c ∈ x, isWs c = true) →
          split_text_to_chunks ((title, x) :: rest) 20 = split_text_to_chunks rest 20)) :=
  ⟨by decide, split_text_to_chunks_nonempty_bounded [("Ch1", "Hi there. Bye.".data)] 20
    (by decide)⟩

theorem splitFold_starts {cc : Nat} (hcc : cc ≠ 0) (chapters : List (String × Str))
    (acc : SplitAcc) (h1 : List.Pairwise (fun a b => a.1 < b.1) acc.starts)
    (h2 : ∀ s ∈ acc.starts, s.1 < acc.chunks.length) :
    List.Pairwise (fun a b => a.1 < b.1) (chapters.foldl (processChapter cc) acc).starts ∧
    ∀ s ∈ (chapters.foldl (processChapter cc) acc).starts,
      s.1 < (chapters.foldl (processChapter cc) acc).chunks.length := by
  induction chapters generalizing acc with
  | nil => exact ⟨h1, h2⟩
  | cons ch chs ih =>
    simp only [List.foldl_cons]
    rcases processChapter_spec hcc acc ch with ⟨nc, ns, heq, hdisj, -, -⟩
    rcases hdisj with ⟨hnc, hns, -⟩ | ⟨hnc, hns⟩
    · subst hnc hns
      refine ih _ ?_ ?_
      · rw [heq]
        simpa using h1
      · rw [heq]
        simpa using h2
    · subst hns
      refine ih _ ?_ ?_
      · rw [heq]
        simp only
        rw [List.pairwise_append]
        refine ⟨h1, by simp, ?_⟩
        intro a ha b hb
        simp only [List.mem_singleton] at hb
        subst hb
        exact h2 a ha
      · rw [heq]
        intro s hs
        simp only at hs
        rcases List.mem_append.mp hs with hs | hs
        · have := h2 s hs
          simp only [List.length_append]
          omega
        · simp only [List.mem_singleton] at hs
          subst hs
          simp only [List.length_append]
          have : 0 < nc.length := List.length_pos.mpr hnc
          omega

/-- C9: `chapter_start_indices` has strictly increasing chunk indices, each
within `[0, total_chunks)`; a chapter whose processing appends no chunk also
records no start entry, and a chapter that records a start entry appends at
least one chunk. -/
theorem chapter_start_indices_strict_mono_in_range (chapters : List (String × Str))
    (cc : Nat) (hcc : 1 ≤ cc) :
    List.Pairwise (fun a b => a.1 < b.1) (split_text_to_chunks chapters cc).2 ∧
    (∀ s ∈ (split_text_to_chunks chapters cc).2,
      s.1 < (split_text_to_chunks chapters cc).1.length) ∧
    (∀ (acc : SplitAcc) (ch : String × Str),
      ((processChapter cc acc ch).chunks = acc.chunks →
        (processChapter cc acc ch).starts = acc.starts) ∧
      ((processChapter cc acc ch).starts ≠ acc.starts →
        acc.chunks.length < (processChapter cc acc ch).chunks.length)) := by
  have hcc0 : cc ≠ 0 := by omega
  have hmain := splitFold_starts hcc0 chapters ⟨[], []⟩ (by simp) (by simp)
  refine ⟨hmain.1, hmain.2, ?_⟩
  intro acc ch
  rcases processChapter_spec hcc0 acc ch with ⟨nc, ns, heq, hdisj, -, -⟩
  rcases hdisj with ⟨hnc, hns, -⟩ | ⟨hnc, hns⟩
  · subst hnc hns
    constructor
    · intro _
      rw [heq]
      simp
    · intro hne
      exfalso
      apply hne
      rw [heq]
      simp
  · subst hns
    constructor
    · intro hchunks
      exfalso
      rw [heq] at hchunks
      simp only at hchunks
      have : acc.chunks.length = acc.chunks.length + nc.length := by
        conv_lhs => rw [← hchunks]
        simp
      have : 0 < nc.length := List.length_pos.mpr hnc
      omega
    · intro _
      rw [heq]
      simp only [List.length_append]
      have : 0 < nc.length := List.length_pos.mpr hnc
      omega

/-- Witness for C9 at a concrete input. -/
theorem chapter_start_indices_strict_mono_in_range_witness :
    1 ≤ 20 ∧
      (List.Pairwise (fun a b => a.1 < b.1)
          (split_text_to_chunks [("Ch1", "Hi there. Bye.".data)] 20).2 ∧
        (∀ s ∈ (split_text_to_chunks [("Ch1", "Hi there. Bye.".data)] 20).2,
          s.1 < (split_text_to_chunks [("Ch1", "Hi there. Bye.".data)] 20).1.length) ∧
        (∀ (acc : SplitAcc) (ch : String × Str),
          ((processChapter 20 acc ch).chunks = acc.chunks →
            (processChapter 20 acc ch).starts = acc.starts) ∧
          ((processChapter 20 acc ch).starts ≠ acc.starts →
            acc.chunks.length < (processChapter 20 acc ch).chunks.length))) :=
  ⟨by decide, chapter_start_indices_strict_mono_in_range [("Ch1", "Hi there. Bye.".data)] 20
    (by decide)⟩

/-! ### Audio sample conversion (`audio_to_int16`, app.py lines 386-405) -/

/-- A raw audio buffer: either already int16 samples, or floating-point
samples (IEEE values modelled as rationals). -/
inductive AudioArray where
  | i16 (samples : List Int)
  | fl (samples : List Rat)
deriving DecidableEq

/-- Number of samples in the buffer (`len(audio)`). -/
def AudioArray.length : AudioArray → Nat
  | .i16 s => s.length
  | .fl s => s.length

/-- Model of `np.clip(x, -1.0, 1.0)` on one sample. -/
def clipSample (x : Rat) : Rat := max (-1) (min 1 x)

/-- The float-to-integer cast of `.astype(np.int16)`: C-style truncation
toward zero (no overflow occurs because inputs are within ±32767). -/
def truncToInt (x : Rat) : Int := if 0 ≤ x then ⌊x⌋ else ⌈x⌉

/-- Model of `audio_to_int16` (app.py lines 386-405): identity on int16 input,
otherwise clip to `[-1, 1]`, scale by `32767.0` and cast to int16. -/
def audio_to_int16 : AudioArray → AudioArray
  | .i16 s => .i16 s
  | .fl s => .i16 (s.map (fun x => truncToInt (clipSample x * 32767)))

theorem clipSample_bounds (x : Rat) : -1 ≤ clipSample x ∧ clipSample x ≤ 1 := by
  unfold clipSample
  constructor
  · exact le_max_left _ _
  · exact max_le (by norm_num) (min_le_left _ _)

theorem truncToInt_bounds {x : Rat} {m : Nat} (h1 : -(m : Rat) ≤ x) (h2 : x ≤ (m : Rat)) :
    -(m : Int) ≤ truncToInt x ∧ truncToInt x ≤ (m : Int) := by
  unfold truncToInt
  by_cases hx : 0 ≤ x
  · rw [if_pos hx]
    constructor
    · calc -(m : Int) ≤ 0 := by omega
        _ ≤ ⌊x⌋ := Int.floor_nonneg.mpr hx
    · have := Int.floor_le_floor h2
      rwa [Int.floor_natCast] at this
  · rw [if_neg hx]
    push_neg at hx
    constructor
    · have h3 := Int.ceil_le_ceil h1
      have hc : ⌈-(m : Rat)⌉ = -(m : Int) := by
        rw [Int.ceil_neg, Int.floor_natCast]
      rwa [hc] at h3
    · calc ⌈x⌉ ≤ ⌈(0 : Rat)⌉ := Int.ceil_le_ceil (le_of_lt hx)
        _ = 0 := Int.ceil_zero
        _ ≤ (m : Int) := by omega

/-- C10: `audio_to_int16` always returns an int16 array; on int16 input it is
the identity; it is idempotent; on float input it is exactly per-sample
clip-to-[-1,1]-then-scale-by-32767 (truncated to integer), and every
resulting sample lies in `[-32767, 32767]`. -/
theorem audio_to_int16_spec :
    (∀ a : AudioArray, ∃ s : List Int, audio_to_int16 a = .i16 s) ∧
    (∀ s : List Int, audio_to_int16 (.i16 s) = .i16 s) ∧
    (∀ a : AudioArray, audio_to_int16 (audio_to_int16 a) = audio_to_int16 a) ∧
    (∀ qs : List Rat, audio_to_int16 (.fl qs) =
      .i16 (qs.map (fun x => truncToInt (clipSample x * 32767)))) ∧
    (∀ (qs : List Rat) (s : List Int), audio_to_int16 (.fl qs) = .i16 s →
      ∀ v ∈ s, -32767 ≤ v ∧ v ≤ 32767) := by
  refine ⟨?_, fun s => rfl, ?_, fun qs => rfl, ?_⟩
  · intro a
    cases a with
    | i16 s => exact ⟨s, rfl⟩
    | fl s => exact ⟨_, rfl⟩
  · intro a
    cases a with
    | i16 s => rfl
    | fl s => rfl
  · intro qs s hs v hv
    injection hs with hs
    subst hs
    rcases List.mem_map.mp hv with ⟨x, -, hx⟩
    subst hx
    rcases clipSample_bounds x with ⟨hl, hr⟩
    have h1 : -((32767 : Nat) : Rat) ≤ clipSample x * 32767 := by
      have := mul_le_mul_of_nonneg_right hl (by norm_num : (0 : Rat) ≤ 32767)
      push_cast
      linarith
    have h2 : clipSample x * 32767 ≤ ((32767 : Nat) : Rat) := by
      have := mul_le_mul_of_nonneg_right hr (by norm_num : (0 : Rat) ≤ 32767)
      push_cast
      linarith
    have := truncToInt_bounds h1 h2
    constructor
    · have h3 := this.1
      omega
    · have h3 := this.2
      omega

/-- Witness for C10 at the concrete one-sample float buffer `[0]`. -/
theorem audio_to_int16_spec_witness :
    audio_to_int16 (.fl [0]) =
        .i16 ([0].map (fun x => truncToInt (clipSample x * 32767))) ∧
      (-32767 ≤ truncToInt (clipSample 0 * 32767) ∧
        truncToInt (clipSample 0 * 32767) ≤ 32767) :=
  ⟨audio_to_int16_spec.2.2.2.1 [0],
    audio_to_int16_spec.2.2.2.2 [0] _ (audio_to_int16_spec.2.2.2.1 [0])
      (truncToInt (clipSample 0 * 32767)) (by simp)⟩

/-! ### Checkpoint store (checkpoint.py) -/

/-- JSON-serializable values of the checkpoint `config` dict; `vnone` is
Python `None`, which is also what `dict.get` returns for a missing key. -/
inductive ConfigVal where
  | vstr (s : String)
  | vint (n : Int)
  | vrat (q : Rat)
  | vbool (b : Bool)
  | vnone
deriving DecidableEq

/-- A Python dict of config options, as an association list with unique keys
read through `pyGet`. -/
abbrev Config := List (String × ConfigVal)

/-- Python `dict.get(key)`: the mapped value, or `None` when absent. -/
def pyGet (m : Config) (k : String) : ConfigVal :=
  match m.find? (fun p => p.1 = k) with
  | some p => p.2
  | none => .vnone

/-- The `CheckpointState` dataclass (checkpoint.py lines 13-33). -/
structure CheckpointState where
  epub_hash : String
  config : Config
  total_chunks : Nat
  completed_chunks : List Nat
  chapter_start_indices : List (Nat × String)
deriving DecidableEq

/-- The fixed verification set `key_options` of `verify_checkpoint`
(checkpoint.py lines 124-134). -/
def key_options : List String :=
  ["voice", "speed", "lang_code", "backend", "chunk_chars", "split_pattern",
    "format", "bitrate", "normalize"]

/-- Model of `compute_epub_hash` (checkpoint.py lines 36-43), which reads the input file and
hashes its bytes with SHA-256; the hash primitive
`hashlib.sha256(...).hexdigest()` is an external library function passed in
as `sha256hex`, applied to the whole byte content. -/
def compute_epub_hash (sha256hex : List Nat → String) (epubBytes : List Nat) : String :=
  sha256hex epubBytes

/-- Model of `verify_checkpoint(checkpoint_dir, epub_path, config)` (checkpoint.py
lines 106-139), with disk access abstracted: `loaded` is what
`load_checkpoint` returns for the directory, and `epubBytes` is the content
of the current input file. -/
def verify_checkpoint (sha256hex : List Nat → String) (loaded : Option CheckpointState)
    (epubBytes : List Nat) (config : Config) : Bool :=
  match loaded with
  | none => false
  | some st =>
    if st.epub_hash ≠ compute_epub_hash sha256hex epubBytes then false
    else key_options.all (fun k => pyGet st.config k = pyGet config k)

/-- C3: `verify` returns `true` iff a loadable checkpoint exists, its
recorded fingerprint equals the hash of the current input bytes, and every
key of the fixed verification set matches the current config exactly; in
particular a checkpoint saved with identical input bytes and identical
config verifies, and a mismatch on any single verification key forces
`false`. -/
theorem verify_checkpoint_spec :
    (∀ (h : List Nat → String) (loaded : Option CheckpointState) (bytes : List Nat)
        (cfg : Config),
      verify_checkpoint h loaded bytes cfg = true ↔
        ∃ st, loaded = some st ∧ st.epub_hash = compute_epub_hash h bytes ∧
          ∀ k ∈ key_options, pyGet st.config k = pyGet cfg k) ∧
    (∀ (h : List Nat → String) (bytes : List Nat) (cfg : Config) (n : Nat)
        (comp : List Nat) (starts : List (Nat × String)),
      verify_checkpoint h (some ⟨compute_epub_hash h bytes, cfg, n, comp, starts⟩) bytes cfg
        = true) ∧
    (∀ (h : List Nat → String) (st : CheckpointState) (bytes : List Nat) (cfg : Config)
        (k : String), k ∈ key_options → pyGet st.config k ≠ pyGet cfg k →
      verify_checkpoint h (some st) bytes cfg = false) := by
  have hiff : ∀ (h : List Nat → String) (loaded : Option CheckpointState) (bytes : List Nat)
      (cfg : Config),
      verify_checkpoint h loaded bytes cfg = true ↔
        ∃ st, loaded = some st ∧ st.epub_hash = compute_epub_hash h bytes ∧
          ∀ k ∈ key_options, pyGet st.config k = pyGet cfg k := by
    intro h loaded bytes cfg
    cases loaded with
    | none => simp [verify_checkpoint]
    | some st =>
      show (if st.epub_hash ≠ compute_epub_hash h bytes then false
        else key_options.all (fun k => pyGet st.config k = pyGet cfg k)) = true ↔ _
      by_cases hh : st.epub_hash ≠ compute_epub_hash h bytes
      · rw [if_pos hh]
        simp only [Bool.false_eq_true, false_iff]
        rintro ⟨st', hst', hhash, -⟩
        injection hst' with hst'
        subst hst'
        exact hh hhash
      · rw [if_neg hh]
        push_neg at hh
        rw [List.all_eq_true]
        constructor
        · intro hall
          refine ⟨st, rfl, hh, ?_⟩
          intro k hk
          have := hall k hk
          simpa using this
        · rintro ⟨st', hst', -, hkeys⟩ k hk
          injection hst' with hst'
          subst hst'
          simpa using hkeys k hk
  refine ⟨hiff, ?_, ?_⟩
  · intro h bytes cfg n comp starts
    rw [hiff]
    exact ⟨_, rfl, rfl, fun k _ => rfl⟩
  · intro h st bytes cfg k hk hne
    by_contra hv
    rw [Bool.not_eq_false, hiff] at hv
    rcases hv with ⟨st', hst', -, hkeys⟩
    injection hst' with hst'
    subst hst'
    exact hne (hkeys k hk)

/-- Witness for C3: a concrete checkpoint saved with the current bytes and
config verifies, and flipping the `voice` key flips the result to `false`. -/
theorem verify_checkpoint_spec_witness :
    (verify_checkpoint (fun _ => "h") (some ⟨compute_epub_hash (fun _ => "h") [1, 2],
        [("voice", ConfigVal.vstr "af")], 3, [], []⟩) [1, 2]
      [("voice", ConfigVal.vstr "af")] = true) ∧
    ("voice" ∈ key_options ∧
      pyGet [("voice", ConfigVal.vstr "bf")] "voice" ≠
        pyGet [("voice", ConfigVal.vstr "af")] "voice" ∧
      verify_checkpoint (fun _ => "h")
        (some ⟨"h", [("voice", ConfigVal.vstr "bf")], 3, [], []⟩) [1, 2]
        [("voice", ConfigVal.vstr "af")] = false) :=
  ⟨verify_checkpoint_spec.2.1 (fun _ => "h") [1, 2] [("voice", ConfigVal.vstr "af")] 3 [] [],
    by decide,
    by decide,
    verify_checkpoint_spec.2.2 (fun _ => "h") ⟨"h", [("voice", ConfigVal.vstr "bf")], 3, [], []⟩
      [1, 2] [("voice", ConfigVal.vstr "af")] "voice" (by decide) (by decide)⟩

/-! ### Manifest persistence (`save_checkpoint` / `load_checkpoint`) -/

/-- Possible on-disk states of the manifest file `state.json`. -/
inductive ManifestFile where
  | absent
  | emptyFile
  | truncatedJson (target : CheckpointState)
  | full (st : CheckpointState)
deriving DecidableEq

/-- Model of `load_checkpoint` (checkpoint.py lines 59-69): a missing file yields
`None`; an empty or truncated file fails `json.load` (a strict prefix of a
serialized JSON object is not valid JSON), the exception is caught and
`None` is returned; a completely written file parses back to the saved
state. -/
def load_checkpoint : ManifestFile → Option CheckpointState
  | .full st => some st
  | _ => none

/-- Model of `save_checkpoint` (checkpoint.py lines 51-56): it opens `state.json` with
mode `"w"`, which truncates the existing file in place, then writes the JSON
dump into it.  These are the on-disk states observable if the process
crashes during the call, in order: the just-truncated empty file, a
partially written JSON prefix, and the complete new file.  There is no
write-to-temporary-file-and-rename step. -/
def save_checkpoint_disk_states (newState : CheckpointState) : List ManifestFile :=
  [.emptyFile, .truncatedJson newState, .full newState]

/-- Two concrete manifests for the C7 counterexample: the previously saved
state and the state being saved when the crash happens. -/
def exManifest0 : CheckpointState := ⟨"h0", [], 2, [0], []⟩

/-- The new manifest being written in the C7 counterexample. -/
def exManifest1 : CheckpointState := ⟨"h0", [], 2, [0, 1], []⟩

/-- C7 counterexample: during `save_checkpoint` of `exManifest1` over a disk
that previously held `exManifest0`, the just-truncated `state.json` is
readable as neither the previous nor the new manifest — the write is not
atomic, so the claim as stated fails. -/
theorem save_checkpoint_not_atomic :
    ¬ (∀ f ∈ save_checkpoint_disk_states exManifest1,
        load_checkpoint f = some exManifest0 ∨ load_checkpoint f = some exManifest1) := by
  intro h
  have := h .emptyFile (by simp [save_checkpoint_disk_states])
  simp [load_checkpoint] at this

/-- C7 amended: `save_checkpoint` truncates and rewrites `state.json` in
place, so a crash during save can leave an empty or partially written file
that holds neither the old nor the new manifest; however `load_checkpoint`
treats every such intermediate state as corrupt and returns absent rather
than ever reading a torn manifest, and a completed save leaves the new
manifest readable. -/
theorem save_checkpoint_crash_states (st : CheckpointState) :
    (∀ f ∈ save_checkpoint_disk_states st,
      load_checkpoint f = some st ∨ load_checkpoint f = none) ∧
    (save_checkpoint_disk_states st).getLast? = some (.full st) ∧
    load_checkpoint (.full st) = some st := by
  refine ⟨?_, rfl, rfl⟩
  intro f hf
  simp only [save_checkpoint_disk_states, List.mem_cons, List.mem_singleton] at hf
  rcases hf with rfl | rfl | rfl | hf
  · exact Or.inr rfl
  · exact Or.inr rfl
  · exact Or.inl rfl
  · simp at hf

/-- Witness for the amended C7 at a concrete manifest and a concrete
intermediate disk state. -/
theorem save_checkpoint_crash_states_witness :
    (load_checkpoint .emptyFile = some exManifest0 ∨
        load_checkpoint .emptyFile = none) ∧
      (save_checkpoint_disk_states exManifest0).getLast? = some (.full exManifest0) ∧
      load_checkpoint (.full exManifest0) = some exManifest0 :=
  ⟨(save_checkpoint_crash_states exManifest0).1 .emptyFile
      (by simp [save_checkpoint_disk_states]),
    (save_checkpoint_crash_states exManifest0).2.1,
    (save_checkpoint_crash_states exManifest0).2.2⟩

/-! ### Sequential pipeline scheduler (`run_inference_sequential`,
app.py lines 1226-1343) -/

/-- Samples a buffer contributes as bytes to the sink; write sites only ever
receive `audio_to_int16` output (int16); the `fl` branch is given for
totality and performs the same per-sample conversion. -/
def AudioArray.intSamples : AudioArray → List Int
  | .i16 s => s
  | .fl s => s.map (fun x => truncToInt (clipSample x * 32767))

/-- Parameters of one sequential run: whether checkpointing is enabled,
whether `--resume` was passed, and the backend `generate` call as the finite
buffer sequence it yields per chunk index. -/
structure SeqParams where
  use_checkpoint : Bool
  resume : Bool
  backend : Nat → List AudioArray

/-- State of the sequential scheduler, including the observable disk and
sink effects: the in-memory completed set, the per-chunk audio blobs on
disk, `cumulative_samples`, `chunk_sample_offsets`, the PCM samples written
to the sink so far, and the trace of `completed_chunks` lists persisted by
successive `save_checkpoint` calls. -/
structure SeqState where
  completed : Finset Nat
  blobs : Nat → Option AudioArray
  cumulative : Nat
  offsets : List Nat
  sink : List Int
  saved_manifests : List (List Nat)

/-- Writing one int16 buffer to the sink and advancing `cumulative_samples`
(app.py lines 1297-1306 and 1246-1255). -/
def writeBuffer (st : SeqState) (a : AudioArray) : SeqState :=
  { st with sink := st.sink ++ a.intSamples, cumulative := st.cumulative + a.length }

/-- The live-inference path for one chunk (app.py lines 1279-1324): stream
every backend buffer through `audio_to_int16` to the sink; then, if
checkpointing is on, save the chunk blob (`np.concatenate` of the collected
int16 parts, an empty int16 array when there are none), add the index to
`completed_chunks` and persist the manifest with the sorted completed set. -/
def infer_chunk (p : SeqParams) (st : SeqState) (idx : Nat) : SeqState :=
  if p.use_checkpoint then
    { ((p.backend idx).map audio_to_int16).foldl writeBuffer st with
      blobs := Function.update (((p.backend idx).map audio_to_int16).foldl writeBuffer st).blobs
        idx (some (.i16 ((((p.backend idx).map audio_to_int16).map
          AudioArray.intSamples).flatten)))
      completed := insert idx (((p.backend idx).map audio_to_int16).foldl writeBuffer st).completed
      saved_manifests :=
        (((p.backend idx).map audio_to_int16).foldl writeBuffer st).saved_manifests ++
          [(insert idx
            (((p.backend idx).map audio_to_int16).foldl writeBuffer st).completed).sort (· ≤ ·)] }
  else ((p.backend idx).map audio_to_int16).foldl writeBuffer st

/-- The dtype check of the reuse path (app.py lines 1243-1244):
`if chunk_audio.dtype != np.int16: chunk_audio = audio_to_int16(chunk_audio)`. -/
def ensureInt16 : AudioArray → AudioArray
  | .i16 s => .i16 s
  | .fl s => audio_to_int16 (.fl s)

/-- The body of one iteration of the sequential loop after the offset was
recorded (app.py lines 1240-1324): on resume with the index marked
completed, either reuse the stored blob, or—when the blob is missing—remove
the index from `completed_chunks`, persist the shrunken manifest
(`MISSING_AUDIO`) and fall through to live inference. -/
def process_chunk_body (p : SeqParams) (st : SeqState) (idx : Nat) : SeqState :=
  if p.use_checkpoint ∧ p.resume ∧ idx ∈ st.completed then
    match st.blobs idx with
    | some blob => writeBuffer st (ensureInt16 blob)
    | none =>
      infer_chunk p
        { st with
          completed := st.completed.erase idx
          saved_manifests := st.saved_manifests ++ [(st.completed.erase idx).sort (· ≤ ·)] }
        idx
  else infer_chunk p st idx

/-- One iteration of the sequential loop (app.py lines 1236-1343): first
`chunk_sample_offsets[idx] = cumulative_samples`, then the body. -/
def process_chunk (p : SeqParams) (st : SeqState) (idx : Nat) : SeqState :=
  process_chunk_body p { st with offsets := st.offsets.set idx st.cumulative } idx

/-- Model of `run_inference_sequential` over chunk indices `0, ..., n-1`
(app.py lines 1226-1343). -/
def run_inference_sequential (p : SeqParams) (n : Nat) (st : SeqState) : SeqState :=
  (List.range n).foldl (process_chunk p) st

/-- The scheduler's state on entry (app.py lines 1101-1192): completed set
and blobs from the verified checkpoint (empty when starting fresh),
`cumulative_samples = 0`, `chunk_sample_offsets = [0] * total_chunks`,
nothing written yet. -/
def initSeqState (completed0 : Finset Nat) (blobs0 : Nat → Option AudioArray) (n : Nat) :
    SeqState :=
  ⟨completed0, blobs0, 0, List.replicate n 0, [], []⟩

/-- The number of samples chunk `idx` contributes to the sink in a
sequential run: the stored blob's length when the reuse path applies,
otherwise the total length of the buffers the backend yields. -/
def seqChunkSamples (p : SeqParams) (completed0 : Finset Nat)
    (blobs0 : Nat → Option AudioArray) (idx : Nat) : Nat :=
  if p.use_checkpoint ∧ p.resume ∧ idx ∈ completed0 then
    match blobs0 idx with
    | some blob => blob.length
    | none => ((p.backend idx).map AudioArray.length).sum
  else ((p.backend idx).map AudioArray.length).sum

/-! ### Sequential scheduler lemmas -/

theorem audio_to_int16_length (a : AudioArray) : (audio_to_int16 a).length = a.length := by
  cases a <;> simp [audio_to_int16, AudioArray.length]

theorem ensureInt16_length (a : AudioArray) : (ensureInt16 a).length = a.length := by
  cases a
  · rfl
  · simp [ensureInt16, audio_to_int16_length]

/-- The int16 part collected for the checkpoint blob and streamed to the
sink for one inferred chunk. -/
def chunkSink (p : SeqParams) (idx : Nat) : List Int :=
  (((p.backend idx).map audio_to_int16).map AudioArray.intSamples).flatten

theorem map_audio_length (l : List AudioArray) :
    ((l.map audio_to_int16).map AudioArray.length).sum = (l.map AudioArray.length).sum := by
  induction l with
  | nil => rfl
  | cons a l ih => simp only [List.map_cons, List.sum_cons, audio_to_int16_length, ih]

theorem map_comp_audio_length (l : List AudioArray) :
    (l.map (AudioArray.length ∘ audio_to_int16)).sum = (l.map AudioArray.length).sum := by
  rw [← List.map_map]
  exact map_audio_length l

theorem writeFold (l : List AudioArray) (st : SeqState) :
    l.foldl writeBuffer st =
      { st with
        sink := st.sink ++ (l.map AudioArray.intSamples).flatten
        cumulative := st.cumulative + (l.map AudioArray.length).sum } := by
  induction l generalizing st with
  | nil => cases st; simp
  | cons a l ih =>
    simp only [List.foldl_cons, ih, writeBuffer]
    cases st
    simp [List.append_assoc, Nat.add_assoc]

theorem infer_chunk_eq (p : SeqParams) (st : SeqState) (idx : Nat) :
    infer_chunk p st idx =
      { completed := if p.use_checkpoint then insert idx st.completed else st.completed
        blobs := if p.use_checkpoint
          then Function.update st.blobs idx (some (.i16 (chunkSink p idx))) else st.blobs
        cumulative := st.cumulative + ((p.backend idx).map AudioArray.length).sum
        offsets := st.offsets
        sink := st.sink ++ chunkSink p idx
        saved_manifests := st.saved_manifests ++
          (if p.use_checkpoint then [(insert idx st.completed).sort (· ≤ ·)] else []) } := by
  unfold infer_chunk
  rw [writeFold]
  by_cases h : p.use_checkpoint
  · simp only [if_pos h]
    cases st
    simp [chunkSink, map_audio_length, map_comp_audio_length]
  · simp only [if_neg h]
    cases st
    simp [chunkSink, map_audio_length, map_comp_audio_length]

theorem seqChunkSamples_congr (p : SeqParams) {c1 c2 : Finset Nat}
    {b1 b2 : Nat → Option AudioArray} (idx : Nat) (hc : idx ∈ c1 ↔ idx ∈ c2)
    (hb : b1 idx = b2 idx) :
    seqChunkSamples p c1 b1 idx = seqChunkSamples p c2 b2 idx := by
  unfold seqChunkSamples
  rw [hb]
  by_cases h : p.use_checkpoint ∧ p.resume ∧ idx ∈ c1
  · rw [if_pos h, if_pos ⟨h.1, h.2.1, hc.mp h.2.2⟩]
  · rw [if_neg h, if_neg ?_]
    intro h2
    exact h ⟨h2.1, h2.2.1, hc.mpr h2.2.2⟩

theorem process_chunk_cumulative (p : SeqParams) (st : SeqState) (idx : Nat) :
    (process_chunk p st idx).cumulative =
      st.cumulative + seqChunkSamples p st.completed st.blobs idx := by
  unfold process_chunk process_chunk_body seqChunkSamples
  by_cases h : p.use_checkpoint ∧ p.resume ∧ idx ∈ st.completed
  · rw [if_pos (by simpa using h), if_pos h]
    cases hblob : st.blobs idx with
    | some blob =>
      simp only [hblob]
      simp [writeBuffer, ensureInt16_length]
    | none =>
      simp only [hblob]
      rw [infer_chunk_eq]
  · rw [if_neg (by simpa using h), if_neg h]
    rw [infer_chunk_eq]

theorem process_chunk_offsets (p : SeqParams) (st : SeqState) (idx : Nat) :
    (process_chunk p st idx).offsets = st.offsets.set idx st.cumulative := by
  unfold process_chunk process_chunk_body
  by_cases h : p.use_checkpoint ∧ p.resume ∧ idx ∈ st.completed
  · rw [if_pos (by simpa using h)]
    cases hblob : st.blobs idx with
    | some blob => simp [writeBuffer]
    | none => rw [infer_chunk_eq]
  · rw [if_neg (by simpa using h)]
    rw [infer_chunk_eq]

theorem process_chunk_frame (p : SeqParams) (st : SeqState) (idx j : Nat) (hj : j ≠ idx) :
    (process_chunk p st idx).blobs j = st.blobs j ∧
    (j ∈ (process_chunk p st idx).completed ↔ j ∈ st.completed) := by
  unfold process_chunk process_chunk_body
  by_cases h : p.use_checkpoint ∧ p.resume ∧ idx ∈ st.completed
  · rw [if_pos (by simpa using h)]
    cases hblob : st.blobs idx with
    | some blob => simp [writeBuffer]
    | none =>
      rw [infer_chunk_eq]
      by_cases hck : p.use_checkpoint
      · simp only [if_pos hck]
        constructor
        · exact Function.update_noteq hj _ _
        · simp [Finset.mem_insert, Finset.mem_erase, hj]
      · simp only [if_neg hck]
        simp [Finset.mem_erase, hj]
  · rw [if_neg (by simpa using h)]
    rw [infer_chunk_eq]
    by_cases hck : p.use_checkpoint
    · simp only [if_pos hck]
      exact ⟨Function.update_noteq hj _ _, by simp [Finset.mem_insert, hj]⟩
    · simp only [if_neg hck]
      simp

/-- Invariant of the sequential run after the first `k` chunks:
`cumulative_samples` is the sum of the first `k` per-chunk sample counts,
chunks not yet processed still see their initial completed/blob state, and
every processed chunk's recorded offset is the sum of the sample counts of
the chunks before it. -/
theorem seq_run_inv (p : SeqParams) (completed0 : Finset Nat)
    (blobs0 : Nat → Option AudioArray) (n : Nat) :
    ∀ k, k ≤ n →
      (run_inference_sequential p k (initSeqState completed0 blobs0 n)).cumulative =
        ((List.range k).map (seqChunkSamples p completed0 blobs0)).sum ∧
      (∀ j, k ≤ j →
        (run_inference_sequential p k (initSeqState completed0 blobs0 n)).blobs j = blobs0 j ∧
        (j ∈ (run_inference_sequential p k (initSeqState completed0 blobs0 n)).completed ↔
          j ∈ completed0)) ∧
      (run_inference_sequential p k (initSeqState completed0 blobs0 n)).offsets.length = n ∧
      (∀ j, j < k →
        (run_inference_sequential p k (initSeqState completed0 blobs0 n)).offsets[j]? =
          some (((List.range j).map (seqChunkSamples p completed0 blobs0)).sum)) := by
  intro k
  induction k with
  | zero =>
    intro _
    refine ⟨rfl, fun j _ => ⟨rfl, Iff.rfl⟩, by simp [run_inference_sequential, initSeqState], ?_⟩
    intro j hj
    omega
  | succ k ih =>
    intro hk
    have hk' : k ≤ n := by omega
    rcases ih hk' with ⟨hcum, hframe, hlen, hoff⟩
    have hrun : run_inference_sequential p (k + 1) (initSeqState completed0 blobs0 n) =
        process_chunk p (run_inference_sequential p k (initSeqState completed0 blobs0 n)) k := by
      unfold run_inference_sequential
      rw [List.range_succ, List.foldl_append]
      rfl
    set stk := run_inference_sequential p k (initSeqState completed0 blobs0 n) with hstk
    have hsk : seqChunkSamples p stk.completed stk.blobs k =
        seqChunkSamples p completed0 blobs0 k := by
      rcases hframe k (le_refl k) with ⟨hb, hc⟩
      exact seqChunkSamples_congr p k hc hb
    refine ⟨?_, ?_, ?_, ?_⟩
    · rw [hrun, process_chunk_cumulative, hsk, hcum, List.range_succ, List.map_append,
        List.sum_append]
      simp
    · intro j hj
      have hjk : j ≠ k := by omega
      rw [hrun]
      rcases process_chunk_frame p stk k j hjk with ⟨hb, hc⟩
      rcases hframe j (by omega) with ⟨hb0, hc0⟩
      exact ⟨hb.trans hb0, hc.trans hc0⟩
    · rw [hrun, process_chunk_offsets]
      simp [hlen]
    · intro j hj
      rw [hrun, process_chunk_offsets]
      by_cases hjk : j = k
      · subst hjk
        rw [List.getElem?_set_eq (by omega : j < stk.offsets.length)]
        rw [hcum]
      · rw [List.getElem?_set_ne (fun h => hjk h.symm)]
        exact hoff j (by omega)

/-! ### Overlapped pipeline (`run_inference_overlap3`, app.py lines
1345-1471).  The two bounded queues are single-producer/single-consumer
FIFOs, so each consumer observes exactly its producer's emission order;
queues are therefore embedded as the lists of messages in emission order. -/

/-- The tagged pipeline messages `("start"|"audio"|"done"|"end", idx,
payload)`; the end-of-stream sentinel is its own variant. -/
inductive PipeMsg where
  | start (idx : Nat)
  | audio (idx : Nat) (payload : AudioArray)
  | done (idx : Nat) (infer_ms : Nat)
  | endOfStream
deriving DecidableEq

/-- Messages `inference_worker` (app.py lines 1357-1374) puts on
`inference_queue`, in emission order: for each chunk in input order `start`,
one `audio` per backend buffer, then `done` with the measured time; finally
the end sentinel from the `finally` block. -/
def inference_worker_msgs (backend : Nat → List AudioArray) (timeMs : Nat → Nat)
    (n : Nat) : List PipeMsg :=
  ((List.range n).flatMap (fun idx =>
    PipeMsg.start idx :: ((backend idx).map (PipeMsg.audio idx) ++
      [PipeMsg.done idx (timeMs idx)]))) ++ [PipeMsg.endOfStream]

/-- The per-message conversion `convert_worker` applies: audio payloads go
through `audio_to_int16`, other messages pass through (app.py lines
1382-1384). -/
def convert_msg : PipeMsg → PipeMsg
  | .audio idx a => .audio idx (audio_to_int16 a)
  | m => m

/-- Messages `convert_worker` (app.py lines 1376-1388) puts on `pcm_queue`,
in emission order: it drains its input queue in FIFO order until the end
sentinel, republishing each message converted, then emits its own end
sentinel from the `finally` block. -/
def convert_worker_msgs : List PipeMsg → List PipeMsg
  | [] => [.endOfStream]
  | .endOfStream :: _ => [.endOfStream]
  | m :: rest => convert_msg m :: convert_worker_msgs rest

/-- The message sequence the controller reads from `pcm_queue`. -/
def pcm_stream (backend : Nat → List AudioArray) (timeMs : Nat → Nat) (n : Nat) :
    List PipeMsg :=
  convert_worker_msgs (inference_worker_msgs backend timeMs n)

/-- Controller state of `run_inference_overlap3` (app.py lines 1399-1400 and
the mutable offsets/cumulative of the enclosing scope). -/
structure CtrlState where
  chunk_sample_offsets : List Nat
  chunk_started : List Bool
  cumulative : Nat
  sink : List Int
  processed_count : Nat
deriving DecidableEq

/-- Recording a chunk's start offset and marking it started (app.py lines
1418-1420 and 1430-1432). -/
def ctrlMarkStart (st : CtrlState) (idx : Nat) : CtrlState :=
  { st with
    chunk_sample_offsets := st.chunk_sample_offsets.set idx st.cumulative
    chunk_started := st.chunk_started.set idx true }

/-- Writing one converted buffer to the sink (app.py lines 1433-1435). -/
def ctrlWrite (st : CtrlState) (a : AudioArray) : CtrlState :=
  { st with sink := st.sink ++ a.intSamples, cumulative := st.cumulative + a.length }

/-- The controller loop (app.py lines 1401-1468), which performs all I/O:
drain `pcm_queue` in FIFO order; stop at the end sentinel; raise on an
out-of-range index; `start` records the chunk's offset, `audio` writes the
payload and advances `cumulative_samples` (recording the offset first if the
chunk was not marked started), `done` advances the progress count. -/
def controller_run (n : Nat) : List PipeMsg → CtrlState → Except String CtrlState
  | [], st => .ok st
  | msg :: rest, st =>
    match msg with
    | .endOfStream => .ok st
    | .start idx =>
      if n ≤ idx then .error "Invalid chunk index from overlap3 pipeline"
      else controller_run n rest (ctrlMarkStart st idx)
    | .audio idx a =>
      if n ≤ idx then .error "Invalid chunk index from overlap3 pipeline"
      else controller_run n rest
        (ctrlWrite (if st.chunk_started.getD idx false then st else ctrlMarkStart st idx) a)
    | .done idx _ =>
      if n ≤ idx then .error "Invalid chunk index from overlap3 pipeline"
      else controller_run n rest { st with processed_count := st.processed_count + 1 }

/-- Controller state on entry (app.py lines 1165-1166 and 1399). -/
def initCtrlState (n : Nat) : CtrlState :=
  ⟨List.replicate n 0, List.replicate n false, 0, [], 0⟩

/-- The full overlapped run: the controller drains the converted stream. -/
def run_inference_overlap3 (backend : Nat → List AudioArray) (timeMs : Nat → Nat)
    (n : Nat) : Except String CtrlState :=
  controller_run n (pcm_stream backend timeMs n) (initCtrlState n)

/-- Total sample count of the first `k` chunks in overlapped mode (lengths
are preserved by `audio_to_int16`). -/
def olSum (backend : Nat → List AudioArray) (k : Nat) : Nat :=
  ((List.range k).map (fun j => ((backend j).map AudioArray.length).sum)).sum

/-- One chunk's block of messages as it appears on `pcm_queue`. -/
def conv_block (backend : Nat → List AudioArray) (timeMs : Nat → Nat) (idx : Nat) :
    List PipeMsg :=
  PipeMsg.start idx :: ((backend idx).map (fun a => PipeMsg.audio idx (audio_to_int16 a)) ++
    [PipeMsg.done idx (timeMs idx)])

/-! ### Shape of the converted stream -/

theorem convert_worker_msgs_append (A B : List PipeMsg)
    (hA : ∀ m ∈ A, m ≠ PipeMsg.endOfStream) :
    convert_worker_msgs (A ++ PipeMsg.endOfStream :: B) =
      A.map convert_msg ++ [PipeMsg.endOfStream] := by
  induction A with
  | nil => rfl
  | cons m A ih =>
    have hm : m ≠ PipeMsg.endOfStream := hA m (by simp)
    cases m with
    | start idx => simp [convert_worker_msgs, ih (fun x hx => hA x (by simp [hx]))]
    | audio idx a => simp [convert_worker_msgs, ih (fun x hx => hA x (by simp [hx]))]
    | done idx ms => simp [convert_worker_msgs, ih (fun x hx => hA x (by simp [hx]))]
    | endOfStream => exact absurd rfl hm

theorem pcm_stream_eq (backend : Nat → List AudioArray) (timeMs : Nat → Nat) (n : Nat) :
    pcm_stream backend timeMs n =
      (List.range n).flatMap (conv_block backend timeMs) ++ [PipeMsg.endOfStream] := by
  unfold pcm_stream inference_worker_msgs
  rw [show ((List.range n).flatMap (fun idx =>
      PipeMsg.start idx :: ((backend idx).map (PipeMsg.audio idx) ++
        [PipeMsg.done idx (timeMs idx)]))) ++ [PipeMsg.endOfStream] =
      ((List.range n).flatMap (fun idx =>
      PipeMsg.start idx :: ((backend idx).map (PipeMsg.audio idx) ++
        [PipeMsg.done idx (timeMs idx)]))) ++ PipeMsg.endOfStream :: [] from rfl]
  rw [convert_worker_msgs_append]
  · have hfun : (fun idx => List.map convert_msg
        (PipeMsg.start idx :: (List.map (PipeMsg.audio idx) (backend idx) ++
          [PipeMsg.done idx (timeMs idx)]))) = conv_block backend timeMs := by
      funext idx
      simp [conv_block, convert_msg]
    rw [List.map_flatMap, hfun]
  · intro m hm
    rcases List.mem_flatMap.mp hm with ⟨idx, -, hmem⟩
    rcases List.mem_cons.mp hmem with rfl | hmem
    · simp
    · rcases List.mem_append.mp hmem with hmem | hmem
      · rcases List.mem_map.mp hmem with ⟨a, -, rfl⟩
        simp
      · simp only [List.mem_singleton] at hmem
        subst hmem
        simp

/-! ### Controller accounting -/

theorem set_map_range {α : Type} (n k : Nat) (f : Nat → α) (v : α) (hk : k < n) :
    ((List.range n).map f).set k v = (List.range n).map (fun j => if j = k then v else f j) := by
  apply List.ext_getElem?
  intro i
  by_cases hik : i = k
  · subst hik
    rw [List.getElem?_set_self (by simpa using hk)]
    rw [List.getElem?_map, List.getElem?_range hk]
    simp
  · rw [List.getElem?_set_ne (fun h => hik h.symm)]
    by_cases hin : i < n
    · rw [List.getElem?_map, List.getElem?_map, List.getElem?_range hin]
      simp [hik]
    · rw [List.getElem?_map, List.getElem?_map]
      rw [List.getElem?_eq_none (by simpa using Nat.le_of_not_lt hin)]
      rfl

theorem map_range_congr {α : Type} (n : Nat) (f g : Nat → α) (h : ∀ j, j < n → f j = g j) :
    (List.range n).map f = (List.range n).map g := by
  apply List.map_congr_left
  intro a ha
  exact h a (List.mem_range.mp ha)

/-- The controller state after the blocks of the first `k` chunks have been
drained: offsets of chunks `< k` recorded at the sample position where each
chunk's audio began, `cumulative_samples` equal to the total samples of
those chunks, their converted audio written to the sink in order, and `k`
chunks counted done. -/
def ctrlStateAfter (backend : Nat → List AudioArray) (n k : Nat) : CtrlState :=
  { chunk_sample_offsets := (List.range n).map (fun j => if j < k then olSum backend j else 0)
    chunk_started := (List.range n).map (fun j => decide (j < k))
    cumulative := olSum backend k
    sink := ((List.range k).map (fun j =>
      ((backend j).map (fun a => (audio_to_int16 a).intSamples)).flatten)).flatten
    processed_count := k }

theorem controller_audios (n idx : Nat) (hidx : idx < n) (l : List AudioArray)
    (B : List PipeMsg) (st : CtrlState) (hst : st.chunk_started.getD idx false = true) :
    controller_run n ((l.map (fun a => PipeMsg.audio idx (audio_to_int16 a))) ++ B) st =
      controller_run n B
        { st with
          sink := st.sink ++ (l.map (fun a => (audio_to_int16 a).intSamples)).flatten
          cumulative := st.cumulative + (l.map AudioArray.length).sum } := by
  induction l generalizing st with
  | nil => cases st; simp
  | cons a l ih =>
    simp only [List.map_cons, List.cons_append]
    rw [controller_run]
    simp only [if_neg (Nat.not_le_of_lt hidx), hst, if_pos rfl]
    rw [if_pos trivial]
    rw [ih (ctrlWrite st (audio_to_int16 a))
      (by simpa [ctrlWrite, List.getD_eq_getElem?_getD] using hst)]
    cases st
    simp [ctrlWrite, audio_to_int16_length, List.append_assoc, Nat.add_assoc]

theorem controller_block (backend : Nat → List AudioArray) (timeMs : Nat → Nat)
    (n idx : Nat) (hidx : idx < n) (B : List PipeMsg) (st : CtrlState)
    (hlen : st.chunk_started.length = n) :
    controller_run n (conv_block backend timeMs idx ++ B) st =
      controller_run n B
        { chunk_sample_offsets := st.chunk_sample_offsets.set idx st.cumulative
          chunk_started := st.chunk_started.set idx true
          cumulative := st.cumulative + ((backend idx).map AudioArray.length).sum
          sink := st.sink ++ ((backend idx).map (fun a => (audio_to_int16 a).intSamples)).flatten
          processed_count := st.processed_count + 1 } := by
  unfold conv_block
  simp only [List.cons_append, List.append_assoc, List.singleton_append, List.nil_append]
  rw [controller_run]
  simp only [if_neg (Nat.not_le_of_lt hidx)]
  rw [controller_audios n idx hidx (backend idx) (PipeMsg.done idx (timeMs idx) :: B)
    (ctrlMarkStart st idx) ?_]
  · rw [controller_run]
    simp only [if_neg (Nat.not_le_of_lt hidx)]
    cases st
    simp [ctrlMarkStart]
  · simp only [ctrlMarkStart]
    rw [List.getD_eq_getElem?_getD, List.getElem?_set_self (by rw [hlen]; exact hidx)]
    rfl

theorem ctrlStateAfter_zero (backend : Nat → List AudioArray) (n : Nat) :
    ctrlStateAfter backend n 0 = initCtrlState n := by
  unfold ctrlStateAfter initCtrlState
  simp only [CtrlState.mk.injEq]
  refine ⟨?_, ?_, by simp [olSum], by simp, trivial⟩
  · apply List.ext_getElem?
    intro i
    by_cases h : i < n
    · rw [List.getElem?_map, List.getElem?_range h, List.getElem?_replicate]
      simp [h]
    · rw [List.getElem?_map, List.getElem?_eq_none (by simpa using Nat.le_of_not_lt h),
        List.getElem?_eq_none (by simpa using Nat.le_of_not_lt h)]
      rfl
  · apply List.ext_getElem?
    intro i
    by_cases h : i < n
    · rw [List.getElem?_map, List.getElem?_range h, List.getElem?_replicate]
      simp [h]
    · rw [List.getElem?_map, List.getElem?_eq_none (by simpa using Nat.le_of_not_lt h),
        List.getElem?_eq_none (by simpa using Nat.le_of_not_lt h)]
      rfl

theorem controller_prefix (backend : Nat → List AudioArray) (timeMs : Nat → Nat) (n : Nat) :
    ∀ k, k ≤ n → ∀ B : List PipeMsg,
      controller_run n (((List.range k).flatMap (conv_block backend timeMs)) ++ B)
          (initCtrlState n) =
        controller_run n B (ctrlStateAfter backend n k) := by
  intro k
  induction k with
  | zero =>
    intro _ B
    rw [ctrlStateAfter_zero]
    rfl
  | succ k ih =>
    intro hk B
    have hk' : k ≤ n := by omega
    have hkn : k < n := by omega
    rw [List.range_succ, List.flatMap_append, List.append_assoc, ih hk']
    simp only [List.flatMap_cons, List.flatMap_nil, List.append_nil]
    rw [controller_block backend timeMs n k hkn B (ctrlStateAfter backend n k) (by
      unfold ctrlStateAfter
      simp)]
    congr 1
    unfold ctrlStateAfter
    simp only [CtrlState.mk.injEq]
    refine ⟨?_, ?_, ?_, ?_, trivial⟩
    · rw [set_map_range n k _ _ hkn]
      apply map_range_congr
      intro j hj
      by_cases hjk : j = k
      · subst hjk
        simp [Nat.lt_succ_self]
      · have : j < k ↔ j < k + 1 := by omega
        simp [hjk, this]
    · rw [set_map_range n k _ _ hkn]
      apply map_range_congr
      intro j hj
      by_cases hjk : j = k
      · subst hjk
        simp [Nat.lt_succ_self]
      · have : j < k ↔ j < k + 1 := by omega
        simp [hjk, this]
    · unfold olSum
      rw [List.range_succ, List.map_append, List.sum_append]
      simp
    · rw [List.range_succ, List.map_append, List.flatten_append]
      simp

theorem overlap_run_eq (backend : Nat → List AudioArray) (timeMs : Nat → Nat) (n : Nat) :
    run_inference_overlap3 backend timeMs n = .ok (ctrlStateAfter backend n n) := by
  unfold run_inference_overlap3
  rw [pcm_stream_eq, controller_prefix backend timeMs n n (le_refl n) [PipeMsg.endOfStream]]
  rfl

theorem ctrlStateAfter_offsets (backend : Nat → List AudioArray) (n k i : Nat)
    (hik : i < k) (hin : i < n) :
    (ctrlStateAfter backend n k).chunk_sample_offsets[i]? = some (olSum backend i) := by
  unfold ctrlStateAfter
  rw [List.getElem?_map, List.getElem?_range hin]
  simp [hik]

/-- Sample accounting of a sequential run at chunk `i`: `cumulative_samples`
after chunks `0..i` is the sum of their sample counts, and the recorded
`chunk_sample_offsets[i]` equals `cumulative_samples` as it stood on entry
to chunk `i`, i.e. before chunk `i`'s first buffer was written. -/
def seqAccountingAt (p : SeqParams) (completed0 : Finset Nat)
    (blobs0 : Nat → Option AudioArray) (n i : Nat) : Prop :=
  (run_inference_sequential p (i + 1) (initSeqState completed0 blobs0 n)).cumulative =
      ((List.range (i + 1)).map (seqChunkSamples p completed0 blobs0)).sum ∧
  (run_inference_sequential p i (initSeqState completed0 blobs0 n)).cumulative =
      ((List.range i).map (seqChunkSamples p completed0 blobs0)).sum ∧
  (run_inference_sequential p n (initSeqState completed0 blobs0 n)).offsets[i]? =
      some ((run_inference_sequential p i (initSeqState completed0 blobs0 n)).cumulative)

/-- Sample accounting of an overlapped run at chunk `i`: the run succeeds,
chunk `i`'s recorded offset is the sum of the sample counts of chunks
`0..i-1` (the value of `cumulative_samples` just before chunk `i`'s first
buffer is written), the final `cumulative_samples` is the total, and after
draining chunk `i`'s messages `cumulative_samples` is the sum over
`0..i`. -/
def overlapAccountingAt (backend : Nat → List AudioArray) (timeMs : Nat → Nat)
    (n i : Nat) : Prop :=
  run_inference_overlap3 backend timeMs n = .ok (ctrlStateAfter backend n n) ∧
  (ctrlStateAfter backend n n).chunk_sample_offsets[i]? = some (olSum backend i) ∧
  (ctrlStateAfter backend n n).cumulative = olSum backend n ∧
  controller_run n ((List.range (i + 1)).flatMap (conv_block backend timeMs))
      (initCtrlState n) = .ok (ctrlStateAfter backend n (i + 1)) ∧
  (ctrlStateAfter backend n (i + 1)).cumulative = olSum backend (i + 1) ∧
  (ctrlStateAfter backend n (i + 1)).chunk_sample_offsets[i]? = some (olSum backend i)

/-- C1: in both pipeline modes, `cumulative_samples` after processing chunk
`i` equals the sum of the sample counts of chunks `0..i`, and the recorded
start offset `chunk_sample_offsets[i]` equals `cumulative_samples`
immediately before chunk `i`'s first audio buffer is written to the sink. -/
theorem cumulative_samples_accounting :
    (∀ (p : SeqParams) (completed0 : Finset Nat) (blobs0 : Nat → Option AudioArray)
        (n i : Nat), i < n → seqAccountingAt p completed0 blobs0 n i) ∧
    (∀ (backend : Nat → List AudioArray) (timeMs : Nat → Nat) (n i : Nat), i < n →
      overlapAccountingAt backend timeMs n i) := by
  constructor
  · intro p completed0 blobs0 n i hi
    have h1 := (seq_run_inv p completed0 blobs0 n (i + 1) (by omega)).1
    have h2 := (seq_run_inv p completed0 blobs0 n i (by omega)).1
    have h3 := (seq_run_inv p completed0 blobs0 n n (le_refl n)).2.2.2 i hi
    exact ⟨h1, h2, by rw [h3, h2]⟩
  · intro backend timeMs n i hi
    refine ⟨overlap_run_eq backend timeMs n, ctrlStateAfter_offsets backend n n i hi hi,
      rfl, ?_, rfl, ctrlStateAfter_offsets backend n (i + 1) i (by omega) hi⟩
    have := controller_prefix backend timeMs n (i + 1) (by omega) []
    rw [List.append_nil] at this
    rw [this]
    rfl

/-- Witness for C1 at a concrete one-chunk run in each mode. -/
theorem cumulative_samples_accounting_witness :
    (0 : Nat) < 1 ∧
      seqAccountingAt ⟨false, false, fun _ => [AudioArray.i16 [1, 2]]⟩ ∅ (fun _ => none) 1 0 ∧
      overlapAccountingAt (fun _ => [AudioArray.i16 [1, 2]]) (fun _ => 0) 1 0 :=
  ⟨by decide,
    cumulative_samples_accounting.1 ⟨false, false, fun _ => [AudioArray.i16 [1, 2]]⟩ ∅
      (fun _ => none) 1 0 (by decide),
    cumulative_samples_accounting.2 (fun _ => [AudioArray.i16 [1, 2]]) (fun _ => 0) 1 0
      (by decide)⟩

/-- C4: on resume, a chunk index marked completed in the manifest whose
audio blob cannot be loaded is removed from the completed set with the
shrunken manifest persisted (`MISSING_AUDIO`), and the chunk is re-inferred
via the backend; the persisted completed set excludes the index until the
re-inference finishes and its blob is re-saved, after which the index is
re-added and the manifest persisted again (`SAVED`). -/
theorem missing_blob_demotes_and_reinfers (p : SeqParams) (st : SeqState) (idx : Nat)
    (h1 : p.use_checkpoint = true) (h2 : p.resume = true) (h3 : idx ∈ st.completed)
    (h4 : st.blobs idx = none) :
    (process_chunk p st idx).saved_manifests =
      st.saved_manifests ++ [(st.completed.erase idx).sort (· ≤ ·)] ++
        [(insert idx (st.completed.erase idx)).sort (· ≤ ·)] ∧
    idx ∉ (st.completed.erase idx).sort (· ≤ ·) ∧
    (process_chunk p st idx).completed = insert idx (st.completed.erase idx) ∧
    (process_chunk p st idx).blobs idx = some (.i16 (chunkSink p idx)) ∧
    (process_chunk p st idx).sink = st.sink ++ chunkSink p idx := by
  unfold process_chunk process_chunk_body
  rw [if_pos (by simp [h1, h2, h3])]
  have hb : (SeqState.mk st.completed st.blobs st.cumulative
      (st.offsets.set idx st.cumulative) st.sink st.saved_manifests).blobs idx = none := h4
  rw [show ({ st with offsets := st.offsets.set idx st.cumulative } : SeqState).blobs =
    st.blobs from rfl]
  rw [h4]
  rw [infer_chunk_eq]
  simp only [if_pos h1]
  refine ⟨by simp [List.append_assoc], ?_, trivial, ?_, trivial⟩
  · intro hmem
    have := (Finset.mem_sort (α := Nat) (· ≤ ·)).mp hmem
    rw [Finset.mem_erase] at this
    exact this.1 rfl
  · exact Function.update_same idx _ _

/-- Witness for C4: a one-chunk resume whose only completed chunk has a
missing blob. -/
theorem missing_blob_demotes_and_reinfers_witness :
    ((⟨true, true, fun _ => [AudioArray.i16 [7]]⟩ : SeqParams).use_checkpoint = true ∧
      (⟨true, true, fun _ => [AudioArray.i16 [7]]⟩ : SeqParams).resume = true ∧
      (0 : Nat) ∈ (initSeqState {0} (fun _ => none) 1).completed ∧
      (initSeqState {0} (fun _ => none) 1).blobs 0 = none) ∧
    ((process_chunk ⟨true, true, fun _ => [AudioArray.i16 [7]]⟩
        (initSeqState {0} (fun _ => none) 1) 0).saved_manifests =
      (initSeqState {0} (fun _ => none) 1).saved_manifests ++
        [(((initSeqState {0} (fun _ => none) 1).completed.erase 0).sort (· ≤ ·))] ++
        [((insert 0 ((initSeqState {0} (fun _ => none) 1).completed.erase 0)).sort (· ≤ ·))] ∧
      (0 : Nat) ∉ (((initSeqState {0} (fun _ => none) 1).completed.erase 0).sort (· ≤ ·)) ∧
      (process_chunk ⟨true, true, fun _ => [AudioArray.i16 [7]]⟩
          (initSeqState {0} (fun _ => none) 1) 0).completed =
        insert 0 ((initSeqState {0} (fun _ => none) 1).completed.erase 0) ∧
      (process_chunk ⟨true, true, fun _ => [AudioArray.i16 [7]]⟩
          (initSeqState {0} (fun _ => none) 1) 0).blobs 0 =
        some (.i16 (chunkSink ⟨true, true, fun _ => [AudioArray.i16 [7]]⟩ 0)) ∧
      (process_chunk ⟨true, true, fun _ => [AudioArray.i16 [7]]⟩
          (initSeqState {0} (fun _ => none) 1) 0).sink =
        (initSeqState {0} (fun _ => none) 1).sink ++
          chunkSink ⟨true, true, fun _ => [AudioArray.i16 [7]]⟩ 0) :=
  ⟨⟨rfl, rfl, by decide, rfl⟩,
    missing_blob_demotes_and_reinfers ⟨true, true, fun _ => [AudioArray.i16 [7]]⟩
      (initSeqState {0} (fun _ => none) 1) 0 rfl rfl (by decide) rfl⟩

/-! ### Message ordering on the overlapped pipeline's queues -/

/-- The chunk index a message belongs to (`none` for the end sentinel). -/
def msgChunk : PipeMsg → Option Nat
  | .start i => some i
  | .audio i _ => some i
  | .done i _ => some i
  | .endOfStream => none

/-- Sort key: messages of chunk `i` get keys `3i`, `3i+1`, `3i+2` for
`start`, `audio`, `done`; the end sentinel sorts after all `n` chunks. -/
def msgKey (n : Nat) : PipeMsg → Nat
  | .start i => 3 * i
  | .audio i _ => 3 * i + 1
  | .done i _ => 3 * i + 2
  | .endOfStream => 3 * n

theorem msgKey_bounds {n : Nat} {m : PipeMsg} {i : Nat} (h : msgChunk m = some i) :
    3 * i ≤ msgKey n m ∧ msgKey n m ≤ 3 * i + 2 := by
  cases m <;> simp_all [msgChunk, msgKey] <;> omega

theorem conv_block_chunk {backend : Nat → List AudioArray} {timeMs : Nat → Nat} {idx : Nat}
    {m : PipeMsg} (hm : m ∈ conv_block backend timeMs idx) : msgChunk m = some idx := by
  unfold conv_block at hm
  rcases List.mem_cons.mp hm with rfl | hm
  · rfl
  · rcases List.mem_append.mp hm with hm | hm
    · rcases List.mem_map.mp hm with ⟨a, -, rfl⟩
      rfl
    · simp only [List.mem_singleton] at hm
      subst hm
      rfl

theorem conv_block_sorted (backend : Nat → List AudioArray) (timeMs : Nat → Nat)
    (n idx : Nat) :
    List.Pairwise (fun x y => msgKey n x ≤ msgKey n y) (conv_block backend timeMs idx) := by
  unfold conv_block
  rw [List.pairwise_cons]
  constructor
  · intro m hm
    rcases List.mem_append.mp hm with hm | hm
    · rcases List.mem_map.mp hm with ⟨a, -, rfl⟩
      simp [msgKey]
    · simp only [List.mem_singleton] at hm
      subst hm
      simp [msgKey]
  · rw [List.pairwise_append]
    refine ⟨?_, by simp, ?_⟩
    · rw [List.pairwise_map]
      apply List.Pairwise.imp (R := fun _ _ => True)
      · intro a b _
        exact le_refl _
      · induction backend idx with
        | nil => exact List.Pairwise.nil
        | cons a l ih => exact List.Pairwise.cons (fun _ _ => trivial) ih
    · intro x hx y hy
      rcases List.mem_map.mp hx with ⟨a, -, rfl⟩
      simp only [List.mem_singleton] at hy
      subst hy
      simp [msgKey]

theorem stream_blocks_sorted (backend : Nat → List AudioArray) (timeMs : Nat → Nat)
    (n : Nat) : ∀ k, k ≤ n →
    List.Pairwise (fun x y => msgKey n x ≤ msgKey n y)
      ((List.range k).flatMap (conv_block backend timeMs)) ∧
    (∀ m ∈ (List.range k).flatMap (conv_block backend timeMs),
      ∃ j, j < k ∧ msgChunk m = some j) := by
  intro k
  induction k with
  | zero => exact fun _ => ⟨List.Pairwise.nil, by simp⟩
  | succ k ih =>
    intro hk
    rcases ih (by omega) with ⟨hsorted, hmem⟩
    rw [List.range_succ, List.flatMap_append]
    simp only [List.flatMap_cons, List.flatMap_nil, List.append_nil]
    constructor
    · rw [List.pairwise_append]
      refine ⟨hsorted, conv_block_sorted backend timeMs n k, ?_⟩
      intro x hx y hy
      rcases hmem x hx with ⟨j, hj, hjx⟩
      have hky : msgChunk y = some k := conv_block_chunk hy
      have hbx := msgKey_bounds (n := n) hjx
      have hby := msgKey_bounds (n := n) hky
      omega
    · intro m hm
      rcases List.mem_append.mp hm with hm | hm
      · rcases hmem m hm with ⟨j, hj, hjm⟩
        exact ⟨j, by omega, hjm⟩
      · exact ⟨k, by omega, conv_block_chunk hm⟩

theorem pcm_stream_sorted (backend : Nat → List AudioArray) (timeMs : Nat → Nat) (n : Nat) :
    List.Pairwise (fun x y => msgKey n x ≤ msgKey n y) (pcm_stream backend timeMs n) := by
  rw [pcm_stream_eq, List.pairwise_append]
  rcases stream_blocks_sorted backend timeMs n n (le_refl n) with ⟨hsorted, hmem⟩
  refine ⟨hsorted, by simp, ?_⟩
  intro x hx y hy
  simp only [List.mem_singleton] at hy
  subst hy
  rcases hmem x hx with ⟨j, hj, hjx⟩
  have := msgKey_bounds (n := n) hjx
  have hend : msgKey n PipeMsg.endOfStream = 3 * n := rfl
  rw [hend]
  omega

theorem stream_pos_lt (backend : Nat → List AudioArray) (timeMs : Nat → Nat) (n : Nat)
    {p q : Nat} {x y : PipeMsg} (hx : (pcm_stream backend timeMs n)[p]? = some x)
    (hy : (pcm_stream backend timeMs n)[q]? = some y)
    (hkey : msgKey n y < msgKey n x) : q < p := by
  by_contra hpq
  push_neg at hpq
  rcases Nat.lt_or_ge p q with hlt | hge
  · have hsorted := pcm_stream_sorted backend timeMs n
    rw [List.pairwise_iff_getElem] at hsorted
    rcases List.getElem?_eq_some_iff.mp hx with ⟨hp, hxe⟩
    rcases List.getElem?_eq_some_iff.mp hy with ⟨hq, hye⟩
    have := hsorted p q hp hq hlt
    rw [hxe, hye] at this
    omega
  · have hpq2 : p = q := by omega
    subst hpq2
    rw [hx] at hy
    injection hy with hy
    subst hy
    omega

/-- C6: on the stream the controller drains in overlapped mode (both queues
are FIFO and both worker stages process chunks strictly in input order),
for every chunk index the `start` message is observed before any `audio`
message of that index, every `audio` before the `done` of that index,
`start` before `done`, and across chunks every message of a lower chunk
index is observed before every message of a higher chunk index. -/
theorem overlap_message_ordering (backend : Nat → List AudioArray) (timeMs : Nat → Nat)
    (n : Nat) :
    (∀ (p q i : Nat) (a : AudioArray),
      (pcm_stream backend timeMs n)[p]? = some (PipeMsg.audio i a) →
      (pcm_stream backend timeMs n)[q]? = some (PipeMsg.start i) → q < p) ∧
    (∀ (p q i : Nat) (a : AudioArray) (ms : Nat),
      (pcm_stream backend timeMs n)[p]? = some (PipeMsg.done i ms) →
      (pcm_stream backend timeMs n)[q]? = some (PipeMsg.audio i a) → q < p) ∧
    (∀ (p q i ms : Nat), (pcm_stream backend timeMs n)[p]? = some (PipeMsg.done i ms) →
      (pcm_stream backend timeMs n)[q]? = some (PipeMsg.start i) → q < p) ∧
    (∀ (p q : Nat) (ma mb : PipeMsg) (a b : Nat),
      (pcm_stream backend timeMs n)[p]? = some ma →
      (pcm_stream backend timeMs n)[q]? = some mb →
      msgChunk ma = some a → msgChunk mb = some b → a < b → p < q) := by
  refine ⟨?_, ?_, ?_, ?_⟩
  · intro p q i a hp hq
    refine stream_pos_lt backend timeMs n hp hq ?_
    have h1 : msgKey n (PipeMsg.start i) = 3 * i := rfl
    have h2 : msgKey n (PipeMsg.audio i a) = 3 * i + 1 := rfl
    omega
  · intro p q i a ms hp hq
    refine stream_pos_lt backend timeMs n hp hq ?_
    have h1 : msgKey n (PipeMsg.audio i a) = 3 * i + 1 := rfl
    have h2 : msgKey n (PipeMsg.done i ms) = 3 * i + 2 := rfl
    omega
  · intro p q i ms hp hq
    refine stream_pos_lt backend timeMs n hp hq ?_
    have h1 : msgKey n (PipeMsg.start i) = 3 * i := rfl
    have h2 : msgKey n (PipeMsg.done i ms) = 3 * i + 2 := rfl
    omega
  · intro p q ma mb a b hp hq hma hmb hab
    refine stream_pos_lt backend timeMs n hq hp ?_
    have h1 := msgKey_bounds (n := n) hma
    have h2 := msgKey_bounds (n := n) hmb
    omega

/-- Witness for C6 on a concrete one-chunk, one-buffer stream. -/
theorem overlap_message_ordering_witness :
    ((pcm_stream (fun _ => [AudioArray.i16 [1]]) (fun _ => 0) 1)[1]? =
        some (PipeMsg.audio 0 (AudioArray.i16 [1])) ∧
      (pcm_stream (fun _ => [AudioArray.i16 [1]]) (fun _ => 0) 1)[0]? =
        some (PipeMsg.start 0)) ∧
    (0 : Nat) < 1 :=
  ⟨⟨by decide, by decide⟩,
    (overlap_message_ordering (fun _ => [AudioArray.i16 [1]]) (fun _ => 0) 1).1 1 0 0
      (AudioArray.i16 [1]) (by decide) (by decide)⟩

/-! ### Chapter span derivation (`main`, app.py lines 1491-1518) -/

/-- The `ChapterInfo` record: a chapter title with its sample span. -/
structure ChapterInfo where
  title : String
  start_sample : Nat
  end_sample : Nat
deriving DecidableEq

/-- The fallback title `f"Chapter {i + 1}"` (app.py line 1511),
`i` 0-based. -/
def fallbackTitle (i : Nat) : String := "Chapter " ++ toString (i + 1)


/-- The `end_sample` of a chapter entry, looking ahead at the remaining
chapter-start entries (app.py lines 1501-1509): the offset of the next
chapter's first chunk when in range, else `total_samples`. -/
def nextEnd (offsets : List Nat) (total : Nat) : List (Nat × String) → Nat
  | s2 :: _ => if s2.1 < offsets.length then offsets.getD s2.1 0 else total
  | [] => total

/-- The `chapter_infos` derivation loop (app.py lines 1491-1518), `i` being
the 0-based `enumerate` counter: `start_sample` is the recorded offset of
the chapter's first chunk (`0` if the index is out of range), `end_sample`
is `nextEnd` over the remaining entries, and an empty title is replaced by
the fallback title. -/
def buildChapterInfos (offsets : List Nat) (total : Nat) :
    Nat → List (Nat × String) → List ChapterInfo
  | _, [] => []
  | i, s :: rest =>
    { title := if s.2 = "" then fallbackTitle i else s.2
      start_sample := if s.1 < offsets.length then offsets.getD s.1 0 else 0
      end_sample := nextEnd offsets total rest } ::
      buildChapterInfos offsets total (i + 1) rest

theorem getD_mono_of_pairwise {offsets : List Nat}
    (hmono : List.Pairwise (fun a b => a ≤ b) offsets) {a b : Nat} (hab : a ≤ b)
    (hb : b < offsets.length) : offsets.getD a 0 ≤ offsets.getD b 0 := by
  have ha : a < offsets.length := by omega
  rw [List.getD_eq_getElem?_getD, List.getD_eq_getElem?_getD,
    List.getElem?_eq_getElem ha, List.getElem?_eq_getElem hb]
  simp only [Option.getD_some]
  rcases Nat.lt_or_ge a b with h | h
  · rw [List.pairwise_iff_getElem] at hmono
    exact hmono a b ha hb h
  · have : a = b := by omega
    subst this
    exact le_refl _

theorem getD_mem {offsets : List Nat} {a : Nat} (ha : a < offsets.length) :
    offsets.getD a 0 ∈ offsets := by
  rw [List.getD_eq_getElem?_getD, List.getElem?_eq_getElem ha]
  simp only [Option.getD_some]
  exact List.getElem_mem ha

theorem buildChapterInfos_spec (offsets : List Nat) (total : Nat)
    (hmono : List.Pairwise (fun a b => a ≤ b) offsets)
    (htotal : ∀ v ∈ offsets, v ≤ total) :
    ∀ (starts : List (Nat × String)) (i : Nat),
      List.Chain' (fun a b => a.1 < b.1) starts →
      (∀ s ∈ starts, s.1 < offsets.length) →
      (buildChapterInfos offsets total i starts).length = starts.length ∧
      List.Chain' (fun a b => a.end_sample = b.start_sample)
        (buildChapterInfos offsets total i starts) ∧
      (∀ info ∈ buildChapterInfos offsets total i starts,
        info.start_sample ≤ info.end_sample) ∧
      (starts ≠ [] →
        (buildChapterInfos offsets total i starts).getLast?.map
          (fun c => c.end_sample) = some total) ∧
      (∀ (k ci : Nat), starts[k]? = some (ci, "") →
        ∃ info, (buildChapterInfos offsets total i starts)[k]? = some info ∧
          info.title = fallbackTitle (i + k)) := by
  intro starts
  induction starts with
  | nil =>
    intro i _ _
    refine ⟨rfl, trivial, by simp [buildChapterInfos], fun h => absurd rfl h,
      fun k ci h => by simp at h⟩
  | cons s rest ih =>
    intro i hchain hrange
    have hchainr : List.Chain' (fun a b => a.1 < b.1) rest := hchain.tail
    have hranger : ∀ x ∈ rest, x.1 < offsets.length := fun x hx => hrange x (by simp [hx])
    rcases ih (i + 1) hchainr hranger with ⟨ihlen, ihchain, ihnov, ihlast, ihtitle⟩
    have hci : s.1 < offsets.length := hrange s (by simp)
    refine ⟨by simp [buildChapterInfos, ihlen], ?_, ?_, ?_, ?_⟩
    · rw [buildChapterInfos]
      cases rest with
      | nil => exact List.chain'_singleton _
      | cons s2 rest2 =>
        have hnci : s2.1 < offsets.length := hranger s2 (by simp)
        rw [buildChapterInfos, List.chain'_cons]
        constructor
        · simp only [nextEnd, if_pos hnci]
        · rw [← buildChapterInfos]
          exact ihchain
    · intro info hinfo
      rw [buildChapterInfos] at hinfo
      rcases List.mem_cons.mp hinfo with rfl | hinfo
      · simp only [if_pos hci]
        cases rest with
        | nil =>
          simp only [nextEnd]
          exact htotal _ (getD_mem hci)
        | cons s2 rest2 =>
          have hnci : s2.1 < offsets.length := hranger s2 (by simp)
          simp only [nextEnd, if_pos hnci]
          have hlt : s.1 < s2.1 := (List.chain'_cons.mp hchain).1
          exact getD_mono_of_pairwise hmono (by omega) hnci
      · exact ihnov info hinfo
    · intro _
      rw [buildChapterInfos]
      cases rest with
      | nil => rfl
      | cons s2 rest2 =>
        rw [buildChapterInfos, List.getLast?_cons_cons, ← buildChapterInfos]
        exact ihlast (by simp)
    · intro k ci2 hk
      cases k with
      | zero =>
        simp only [List.getElem?_cons_zero] at hk
        injection hk with hk
        subst hk
        rw [buildChapterInfos]
        refine ⟨?_, ?_, ?_⟩
        · exact { title := if (ci2, "").2 = "" then fallbackTitle i else (ci2, "").2, start_sample := if (ci2, "").1 < offsets.length then offsets.getD (ci2, "").1 0 else 0, end_sample := nextEnd offsets total rest }
        · simp
        · simp
      | succ k =>
        simp only [List.getElem?_cons_succ] at hk
        rcases ihtitle k ci2 hk with ⟨info, hinfo, htitle⟩
        rw [buildChapterInfos]
        refine ⟨info, by simpa using hinfo, ?_⟩
        rw [htitle]
        congr 1
        omega

/-- C5: for a chapter-start table and per-chunk start-offset table as
produced by a completed run (strictly increasing in-range chunk indices
starting at chunk 0, monotone offsets whose entry 0 is 0 and which are
bounded by the total sample count), the derived `ChapterInfo` list has
contiguous, non-overlapping spans: the first chapter's `start_sample` is 0,
each chapter's `end_sample` equals the next chapter's `start_sample`, the
last chapter's `end_sample` equals the total sample count, and every
chapter whose title is empty receives the fallback title "Chapter N" with N
its 1-based position. -/
theorem chapter_infos_spec (offsets : List Nat) (total : Nat) (t0 : String)
    (rest : List (Nat × String))
    (hchain : List.Chain' (fun a b => a.1 < b.1) ((0, t0) :: rest))
    (hrange : ∀ s ∈ (0, t0) :: rest, s.1 < offsets.length)
    (hmono : List.Pairwise (fun a b => a ≤ b) offsets)
    (hoff0 : offsets.getD 0 0 = 0)
    (htotal : ∀ v ∈ offsets, v ≤ total) :
    (buildChapterInfos offsets total 0 ((0, t0) :: rest)).length =
      ((0, t0) :: rest).length ∧
    (∃ info tl, buildChapterInfos offsets total 0 ((0, t0) :: rest) = info :: tl ∧
      info.start_sample = 0) ∧
    List.Chain' (fun a b => a.end_sample = b.start_sample)
      (buildChapterInfos offsets total 0 ((0, t0) :: rest)) ∧
    (∀ info ∈ buildChapterInfos offsets total 0 ((0, t0) :: rest),
      info.start_sample ≤ info.end_sample) ∧
    (buildChapterInfos offsets total 0 ((0, t0) :: rest)).getLast?.map
      (fun c => c.end_sample) = some total ∧
    (∀ (k ci : Nat), ((0, t0) :: rest)[k]? = some (ci, "") →
      ∃ info, (buildChapterInfos offsets total 0 ((0, t0) :: rest))[k]? = some info ∧
        info.title = fallbackTitle k) := by
  rcases buildChapterInfos_spec offsets total hmono htotal ((0, t0) :: rest) 0 hchain hrange
    with ⟨hlen, hcontig, hnov, hlast, htitle⟩
  refine ⟨hlen, ?_, hcontig, hnov, hlast (by simp), ?_⟩
  · rw [buildChapterInfos]
    refine ⟨_, _, rfl, ?_⟩
    by_cases h0 : (0 : Nat) < offsets.length
    · simp only [if_pos h0]
      exact hoff0
    · simp only
      rw [if_neg h0]
  · intro k ci hk
    rcases htitle k ci hk with ⟨info, hinfo, ht⟩
    exact ⟨info, hinfo, by simpa using ht⟩

/-- Witness for C5 at concrete tables from a two-chapter run. -/
theorem chapter_infos_spec_witness :
    ((List.Chain' (fun a b => a.1 < b.1) [((0 : Nat), ""), (1, "X")] ∧
      (∀ s ∈ [((0 : Nat), ""), (1, "X")], s.1 < [0, 5].length) ∧
      List.Pairwise (fun a b => a ≤ b) [0, 5] ∧
      ([0, 5] : List Nat).getD 0 0 = 0 ∧
      (∀ v ∈ ([0, 5] : List Nat), v ≤ 9)) ∧
    ((buildChapterInfos [0, 5] 9 0 [(0, ""), (1, "X")]).length =
        ([((0 : Nat), ""), (1, "X")]).length ∧
      (∃ info tl, buildChapterInfos [0, 5] 9 0 [(0, ""), (1, "X")] = info :: tl ∧
        info.start_sample = 0) ∧
      List.Chain' (fun a b => a.end_sample = b.start_sample)
        (buildChapterInfos [0, 5] 9 0 [(0, ""), (1, "X")]) ∧
      (∀ info ∈ buildChapterInfos [0, 5] 9 0 [(0, ""), (1, "X")],
        info.start_sample ≤ info.end_sample) ∧
      (buildChapterInfos [0, 5] 9 0 [(0, ""), (1, "X")]).getLast?.map
        (fun c => c.end_sample) = some 9 ∧
      (∀ (k ci : Nat), ([((0 : Nat), ""), (1, "X")])[k]? = some (ci, "") →
        ∃ info, (buildChapterInfos [0, 5] 9 0 [(0, ""), (1, "X")])[k]? = some info ∧
          info.title = fallbackTitle k))) :=
  ⟨⟨by simp [List.chain'_cons], by decide, by decide, by decide, by decide⟩,
    chapter_infos_spec [0, 5] 9 "" [(1, "X")] (by simp [List.chain'_cons]) (by decide)
      (by decide) (by decide) (by decide)⟩
